import Mathlib

/-!
# Static-analysis gate of the submission reviewer (`main.go`)

A shallow embedding of `extractAndValidateZip`, `checkFrameworks` and
`resolveTargetDirectory`, together with the pieces of the Go standard library
they call (`strings.HasPrefix`, `strings.HasSuffix`, `strings.Contains`,
`strings.Split`, `filepath.Clean`, `filepath.Join`, `filepath.Dir`,
`filepath.Walk`) on a system whose path separator is `/`.

A Go string is a sequence of bytes; it is embedded as a list of characters,
one element per byte.  Only `/` and `.` are ever inspected by the path
functions, so nothing depends on what the other elements are.
-/

namespace Reviewer

/-- A Go `string` (and a `[]byte`): a finite sequence of code units. -/
abbrev GoString := List Char

/-- The value of `string(os.PathSeparator)`. -/
def sep : GoString := ['/']

/-! ## `strings` -/

/-- The function `strings.HasPrefix(s, p)`. -/
def HasPrefix (s p : GoString) : Bool := p.isPrefixOf s

/-- The function `strings.HasSuffix(s, p)`. -/
def HasSuffix (s p : GoString) : Bool := p.reverse.isPrefixOf s.reverse

/-- The function `strings.Contains(s, sub)`: `sub` occurs at some offset of `s`. -/
def Contains : GoString → GoString → Bool
  | [], sub => sub.isPrefixOf []
  | c :: cs, sub => sub.isPrefixOf (c :: cs) || Contains cs sub

/-- The function `strings.Split(s, "/")`: the pieces of `s` between the
separators; always at least one piece. -/
def splitSep : GoString → List GoString
  | [] => [[]]
  | c :: cs =>
    if c = '/' then [] :: splitSep cs
    else
      match splitSep cs with
      | [] => [[c]]
      | h :: t => (c :: h) :: t

/-- The function `strings.Join(elems, "/")`. -/
def joinSep : List GoString → GoString
  | [] => []
  | [a] => a
  | a :: b :: rest => a ++ '/' :: joinSep (b :: rest)

/-! ## `path/filepath` -/

/-- One round of the loop of `filepath.Clean`: `out` holds the elements
written so far, the last written one first.  An empty element and `.` are
dropped; `..` removes the last written element when there is one that is not
itself a kept `..`, is dropped at the root of a rooted path, and is kept
otherwise; any other element is written. -/
def cleanStep (rooted : Bool) (out : List GoString) (elem : GoString) : List GoString :=
  if elem = [] then out
  else if elem = ['.'] then out
  else if elem = ['.', '.'] then
    match out with
    | [] => if rooted then [] else [elem]
    | top :: below => if top = ['.', '.'] then elem :: out else below
  else elem :: out

/-- Whether a path starts with the separator. -/
def isRooted : GoString → Bool
  | c :: _ => c = '/'
  | [] => false

/-- The elements `filepath.Clean` keeps, last one first. -/
def cleanElems (path : GoString) : List GoString :=
  (splitSep path).foldl (cleanStep (isRooted path)) []

/-- The string `filepath.Clean` builds from the kept elements. -/
def render (rooted : Bool) (out : List GoString) : GoString :=
  if rooted then '/' :: joinSep out.reverse
  else if out = [] then ['.'] else joinSep out.reverse

/-- The function `filepath.Clean(path)`. -/
def Clean (path : GoString) : GoString :=
  render (isRooted path) (cleanElems path)

/-- The function `filepath.Join(a, b)`: the first non-empty argument starts
the joined string, which is then cleaned; two empty arguments give `""`. -/
def Join (a b : GoString) : GoString :=
  if a ≠ [] then Clean (a ++ '/' :: b)
  else if b ≠ [] then Clean b
  else []

/-- The slice `path[:i+1]` of `filepath.Dir`, `i` the index of the last
separator: the path without the bytes after its last separator. -/
def dirPart (path : GoString) : GoString :=
  (path.reverse.dropWhile (fun c => c ≠ '/')).reverse

/-- The function `filepath.Dir(path)`. -/
def Dir (path : GoString) : GoString := Clean (dirPart path)

/-! ## The manifest check -/

/-- The type `PackageJSON`: the two dependency maps of a decoded manifest.
A Go `map[string]string` is embedded as its lookup function; a nil map and an
empty map both answer `none` everywhere. -/
structure PackageJSON where
  /-- Field `Dependencies` (JSON key `dependencies`). -/
  Dependencies : GoString → Option GoString
  /-- Field `DevDependencies` (JSON key `devDependencies`). -/
  DevDependencies : GoString → Option GoString

/-- The variable `forbiddenFrameworks`. -/
def forbiddenFrameworks : List GoString :=
  ["react".toList, "vue".toList, "@angular/core".toList, "nuxt".toList, "next".toList]

/-- The value of `fmt.Errorf("usage of prohibited framework detected: %s", framework)`. -/
def frameworkError (framework : GoString) : GoString :=
  "usage of prohibited framework detected: ".toList ++ framework

/-- The `for _, framework := range ...` loop of `checkFrameworks`: the first
listed name that is a key of `Dependencies` or of `DevDependencies` is
reported; `none` stands for the `nil` error. -/
def checkLoop (pkg : PackageJSON) : List GoString → Option GoString
  | [] => none
  | framework :: rest =>
    if (pkg.Dependencies framework).isSome then some (frameworkError framework)
    else if (pkg.DevDependencies framework).isSome then some (frameworkError framework)
    else checkLoop pkg rest

/-- The function `checkFrameworks(content)`.  `unmarshal` stands for
`json.Unmarshal(content, &pkg)`: `none` when it returns an error, the decoded
value otherwise. -/
def checkFrameworks (unmarshal : GoString → Option PackageJSON) (content : GoString) :
    Option GoString :=
  match unmarshal content with
  | none => none
  | some pkg => checkLoop pkg forbiddenFrameworks

/-! ## Extraction -/

/-- One `*zip.File` of the archive, together with what the calls made while it
is processed return (`none` stands for a `nil` error). -/
structure ZipEntry where
  /-- Field `f.Name`. -/
  Name : GoString
  /-- Value of `f.FileInfo().IsDir()`. -/
  IsDir : Bool
  /-- Bytes `io.ReadAll(rc)` yields for this entry. -/
  Content : GoString
  /-- Error of `os.MkdirAll(filepath.Dir(fpath), os.ModePerm)`. -/
  mkdirErr : Option GoString
  /-- Error of `os.OpenFile(fpath, ...)`. -/
  openFileErr : Option GoString
  /-- Error of `f.Open()`. -/
  openErr : Option GoString
  /-- Error of `io.Copy(outFile, rc)`. -/
  copyErr : Option GoString

/-- A call that creates a file or directories on disk, with the path it is
given.  `os.MkdirAll` creates the directory at that path, and its missing
parents, unless it exists already. -/
inductive FsOp where
  /-- Call `os.MkdirAll(path, os.ModePerm)`. -/
  | MkdirAll (path : GoString)
  /-- Call `os.OpenFile(path, os.O_WRONLY|os.O_CREATE|os.O_TRUNC, mode)`; the
  bytes `io.Copy` writes go to this file. -/
  | OpenFile (path : GoString)
  deriving DecidableEq, Repr

/-- The path a call is given. -/
def FsOp.path : FsOp → GoString
  | .MkdirAll p => p
  | .OpenFile p => p

/-- The literal `"node_modules/"`. -/
def nodeModulesMarker : GoString := "node_modules/".toList

/-- The literal `".html"`. -/
def htmlSuffix : GoString := ".html".toList

/-- The literal `"package.json"`. -/
def manifestSuffix : GoString := "package.json".toList

/-- The error `fmt.Errorf("ZIP contains prohibited 'node_modules' directory")`. -/
def nodeModulesError : GoString := "ZIP contains prohibited 'node_modules' directory".toList

/-- The error `fmt.Errorf("no HTML files found anywhere in the project")`. -/
def noHTMLError : GoString := "no HTML files found anywhere in the project".toList

/-- The value of `fmt.Errorf("failed to open ZIP archive: %v", err)`. -/
def openArchiveError (err : GoString) : GoString :=
  "failed to open ZIP archive: ".toList ++ err

/-- The result of a run: the returned error (`none` for `nil`) and the calls
made, in order. -/
abbrev Outcome := Option GoString × List FsOp

/-- Put the calls made so far in front of those of the rest of the run. -/
def logged (ops : List FsOp) (r : Outcome) : Outcome := (r.1, ops ++ r.2)

/-- The `for _, f := range r.File` loop of `extractAndValidateZip` and the
check that follows it; `hasHTML` is the local variable of that name. -/
def extractLoop (unmarshal : GoString → Option PackageJSON) (dest : GoString) :
    List ZipEntry → Bool → Outcome
  | [], hasHTML => if !hasHTML then (some noHTMLError, []) else (none, [])
  | f :: rest, hasHTML =>
    if Contains f.Name nodeModulesMarker then (some nodeModulesError, [])
    else
      let hasHTML := if HasSuffix f.Name htmlSuffix then true else hasHTML
      let fpath := Join dest f.Name
      if !HasPrefix fpath (Clean dest ++ sep) then extractLoop unmarshal dest rest hasHTML
      else if f.IsDir then
        logged [.MkdirAll fpath] (extractLoop unmarshal dest rest hasHTML)
      else
        match f.mkdirErr with
        | some err => (some err, [.MkdirAll (Dir fpath)])
        | none =>
          match f.openFileErr with
          | some err => (some err, [.MkdirAll (Dir fpath), .OpenFile fpath])
          | none =>
            match f.openErr with
            | some err => (some err, [.MkdirAll (Dir fpath), .OpenFile fpath])
            | none =>
              match (if HasSuffix f.Name manifestSuffix
                      then checkFrameworks unmarshal f.Content else none) with
              | some err => (some err, [.MkdirAll (Dir fpath), .OpenFile fpath])
              | none =>
                match f.copyErr with
                | some err => (some err, [.MkdirAll (Dir fpath), .OpenFile fpath])
                | none =>
                  logged [.MkdirAll (Dir fpath), .OpenFile fpath]
                    (extractLoop unmarshal dest rest hasHTML)

/-- The function `extractAndValidateZip(zipPath, dest)`.  `openReader` stands
for `zip.OpenReader`: its error, or the entries `r.File` in archive order. -/
def extractAndValidateZip (unmarshal : GoString → Option PackageJSON)
    (openReader : GoString → Except GoString (List ZipEntry))
    (zipPath dest : GoString) : Outcome :=
  match openReader zipPath with
  | .error err => (some (openArchiveError err), [])
  | .ok files => extractLoop unmarshal dest files false

/-- A `zip.OpenReader` that finds the archive `files` at every path. -/
def opens (files : List ZipEntry) : GoString → Except GoString (List ZipEntry) :=
  fun _ => .ok files

/-! ## Project-root resolution -/

/-- What `filepath.Walk` finds at one name of the tree. -/
inductive Node where
  /-- `os.Lstat` succeeds and reports something that is not a directory. -/
  | file (name : GoString)
  /-- `os.Lstat` succeeds and reports a directory; `readErr` is the error of
  reading its entries, `children` the entries in the order they are walked. -/
  | dir (name : GoString) (readErr : Option GoString) (children : List Node)
  /-- `os.Lstat` fails with `err`. -/
  | broken (name : GoString) (err : GoString)

/-- The name under which a node is listed in its directory. -/
def Node.name : Node → GoString
  | .file n => n
  | .dir n _ _ => n
  | .broken n _ => n

/-- One call `fn(path, info, err)` made by `filepath.Walk`; `name` and
`isDir` are `info.Name()` and `info.IsDir()`. -/
structure Visit where
  /-- Argument `path`. -/
  path : GoString
  /-- Value of `info.Name()`. -/
  name : GoString
  /-- Value of `info.IsDir()`. -/
  isDir : Bool
  /-- Argument `err`. -/
  err : Option GoString
  deriving DecidableEq

mutual
/-- The function `walk(path, info, walkFn)` of `path/filepath` for a callback
that always returns `nil`: the calls it makes, in order. -/
def walk (path : GoString) : Node → List Visit
  | .file name => [⟨path, name, false, none⟩]
  | .broken name err => [⟨path, name, false, some err⟩]
  | .dir name readErr children =>
    ⟨path, name, true, readErr⟩ ::
      (match readErr with
       | some _ => []
       | none => walkChildren path children)
/-- The `for _, name := range names` loop of `walk`. -/
def walkChildren (path : GoString) : List Node → List Visit
  | [] => []
  | c :: cs => walk (Join path c.name) c ++ walkChildren path cs
end

/-- The calls of `filepath.Walk(root, fn)` when `fn` always returns `nil`. -/
def Walk (root : GoString) (tree : Node) : List Visit := walk root tree

/-- The literal `"package.json"` as a file name. -/
def manifestName : GoString := "package.json".toList

/-- The literal `"index.html"`. -/
def indexName : GoString := "index.html".toList

/-- The callback passed to `filepath.Walk`; the state is the pair of the
captured variables `projectRoot` and `shortestPathLength`. -/
def walkFn (st : GoString × Nat) (v : Visit) : GoString × Nat :=
  if v.err.isSome then st
  else if !v.isDir && (v.name = manifestName || v.name = indexName) then
    let dir := Dir v.path
    let depth := (splitSep dir).length
    if depth < st.2 then (dir, depth) else st
  else st

/-- The function `resolveTargetDirectory(baseDir)` on the tree `tree` found
at `baseDir`.  The callback never returns an error, so `filepath.Walk`
returns `nil` and the `return baseDir` fallback is never taken. -/
def resolveTargetDirectory (baseDir : GoString) (tree : Node) : GoString :=
  ((Walk baseDir tree).foldl walkFn (baseDir, 9999)).1

/-! ## The loop body of `extractAndValidateZip`, one entry at a time -/

/-- The body of the `for _, f := range r.File` loop for the entry `f`: the
error it returns (`none` when the loop goes on to the next entry) and the
calls it makes. -/
def entryStep (unmarshal : GoString → Option PackageJSON) (dest : GoString)
    (f : ZipEntry) : Outcome :=
  if Contains f.Name nodeModulesMarker then (some nodeModulesError, [])
  else
    let fpath := Join dest f.Name
    if !HasPrefix fpath (Clean dest ++ sep) then (none, [])
    else if f.IsDir then (none, [.MkdirAll fpath])
    else
      match f.mkdirErr with
      | some err => (some err, [.MkdirAll (Dir fpath)])
      | none =>
        match f.openFileErr with
        | some err => (some err, [.MkdirAll (Dir fpath), .OpenFile fpath])
        | none =>
          match f.openErr with
          | some err => (some err, [.MkdirAll (Dir fpath), .OpenFile fpath])
          | none =>
            match (if HasSuffix f.Name manifestSuffix
                    then checkFrameworks unmarshal f.Content else none) with
            | some err => (some err, [.MkdirAll (Dir fpath), .OpenFile fpath])
            | none => (f.copyErr, [.MkdirAll (Dir fpath), .OpenFile fpath])

/-- The loop goes on after the entry: its body returns no error. -/
def passes (unmarshal : GoString → Option PackageJSON) (dest : GoString)
    (f : ZipEntry) : Prop :=
  (entryStep unmarshal dest f).1 = none

instance (unmarshal : GoString → Option PackageJSON) (dest : GoString) (f : ZipEntry) :
    Decidable (passes unmarshal dest f) := by
  unfold passes; infer_instance

/-- No call made for the entry fails: the four recorded errors are `nil`. -/
def ioClean (f : ZipEntry) : Prop :=
  f.mkdirErr = none ∧ f.openFileErr = none ∧ f.openErr = none ∧ f.copyErr = none

instance (f : ZipEntry) : Decidable (ioClean f) := by
  unfold ioClean; infer_instance

/-- The path guard of the loop: the joined path starts with the cleaned
destination followed by the separator. -/
def guardOK (dest : GoString) (name : GoString) : Bool :=
  HasPrefix (Join dest name) (Clean dest ++ sep)

/-- The calls the loop bodies of the given entries make, in order. -/
def opsOf (unmarshal : GoString → Option PackageJSON) (dest : GoString)
    (fs : List ZipEntry) : List FsOp :=
  fs.flatMap (fun f => (entryStep unmarshal dest f).2)

/-- Whether some entry name ends in `.html`. -/
def anyHTML (fs : List ZipEntry) : Bool := fs.any (fun f => HasSuffix f.Name htmlSuffix)

/-- The manifest has `fw` as a key of `dependencies` or of `devDependencies`. -/
def declares (pkg : PackageJSON) (fw : GoString) : Bool :=
  (pkg.Dependencies fw).isSome || (pkg.DevDependencies fw).isSome

/-- The directory name `node_modules`. -/
def nodeModulesDir : GoString := "node_modules".toList

/-- The name has a path segment equal to `seg` that is followed by a separator. -/
def hasDirSegment (name seg : GoString) : Prop := seg ∈ (splitSep name).dropLast

/-- The name has a path segment equal to `seg`. -/
def hasSegment (name seg : GoString) : Prop := seg ∈ splitSep name

instance (name seg : GoString) : Decidable (hasDirSegment name seg) := by
  unfold hasDirSegment; infer_instance

instance (name seg : GoString) : Decidable (hasSegment name seg) := by
  unfold hasSegment; infer_instance

/-! ## Sample data for the examples -/

/-- The manifest of scenario A. -/
def reactManifest : GoString :=
  "\x7b\"dependencies\":\x7b\"react\":\"^18\"\x7d\x7d".toList

/-- The decoded manifest of scenario A: `react` mapped to `^18`, nothing else. -/
def reactPkg : PackageJSON where
  Dependencies := fun k => if k = "react".toList then some "^18".toList else none
  DevDependencies := fun _ => none

/-- A decoded manifest without dependencies. -/
def emptyPkg : PackageJSON where
  Dependencies := fun _ => none
  DevDependencies := fun _ => none

/-- The content `{}`. -/
def emptyManifest : GoString := "\x7b\x7d".toList

/-- What `json.Unmarshal` answers on the contents used in the examples: the
manifest of scenario A, the empty object, and otherwise text that is not JSON. -/
def sampleUnmarshal : GoString → Option PackageJSON := fun content =>
  if content = reactManifest then some reactPkg
  else if content = emptyManifest then some emptyPkg
  else none

/-- A regular-file entry for which no call fails. -/
def fileEntry (name content : GoString) : ZipEntry :=
  ⟨name, false, content, none, none, none, none⟩

/-- A destination root. -/
def tmpDir : GoString := "/tmp/review".toList

/-- An archive path. -/
def zipName : GoString := "sub.zip".toList

/-! ## Cleaned paths -/

/-- The element `..`. -/
def dotdot : GoString := ['.', '.']

/-- An element `filepath.Clean` can write: not empty, without separator, not `.`. -/
def isElem (c : GoString) : Prop := c ≠ [] ∧ '/' ∉ c ∧ c ≠ ['.']

/-- A name a directory can list: not empty, without separator, neither `.` nor `..`. -/
def validName (n : GoString) : Prop := n ≠ [] ∧ '/' ∉ n ∧ n ≠ ['.'] ∧ n ≠ ['.', '.']

instance (n : GoString) : Decidable (validName n) := by
  unfold validName; infer_instance

/-- The shape of the elements `filepath.Clean` keeps (last written first):
each is an element, and a kept `..` only occurs in a path that is not rooted,
with nothing but `..` written before it. -/
def okStack (rooted : Bool) : List GoString → Prop
  | [] => True
  | c :: below =>
    isElem c ∧ (c = dotdot → rooted = false ∧ ∀ x ∈ below, x = dotdot) ∧ okStack rooted below

/-! ## Trees and paths below a root -/

/-- The cleaned path that descends from `base` through the names `names`,
outermost first: the elements of `filepath.Clean(base)` followed by `names`.
Without names it is `filepath.Clean(base)`. -/
def under (base : GoString) (names : List GoString) : GoString :=
  render (isRooted base) (names.reverse ++ cleanElems base)

/-- The node is something other than a directory that `os.Lstat` can read. -/
def Node.isFile : Node → Bool
  | .file _ => true
  | _ => false

mutual
/-- Every name listed in a directory of the tree is a name a directory can list. -/
def Node.wellNamed : Node → Bool
  | .file _ => true
  | .broken _ _ => true
  | .dir _ _ children => wellNamedList children
/-- Every node of the list, and every name listed below it, is well named. -/
def wellNamedList : List Node → Bool
  | [] => true
  | c :: cs => decide (validName c.name) && c.wellNamed && wellNamedList cs
end

/-- A visit of a marker file: no error, not a directory, named `package.json`
or `index.html`. -/
def isMarker (v : Visit) : Bool :=
  !v.err.isSome && !v.isDir && (v.name = manifestName || v.name = indexName)

/-- The depth the callback computes for a visit: the number of pieces of the
directory of its path. -/
def depthOf (v : Visit) : Nat := (splitSep (Dir v.path)).length

/-- The marker files of the tree, in the order the walk reaches them. -/
def markers (baseDir : GoString) (tree : Node) : List Visit :=
  (Walk baseDir tree).filter isMarker

/-- The paths of a walk below a directory: each is the cleaned path of the
directory extended by names of the tree. -/
def belowBase (r : Bool) (st : List GoString) (v : Visit) : Prop :=
  ∃ n ext, validName n ∧ (∀ x ∈ ext, validName x) ∧ v.path = render r (n :: (ext ++ st))

/-- What the path guard lets a call be given: a file is opened strictly
inside the destination; a directory is made strictly inside it or at the
cleaned destination itself. -/
def allowedOp (dest : GoString) : FsOp → Prop
  | .OpenFile p => HasPrefix p (Clean dest ++ sep) = true
  | .MkdirAll p => HasPrefix p (Clean dest ++ sep) = true ∨ p = Clean dest

/-- The bound `PATH_MAX` of Linux, the largest among the common systems:
`os.Lstat` fails with `ENAMETOOLONG` on a path of this many bytes or more, so
the walk reports no file at such a path. -/
def pathMax : Nat := 4096

/-- The tree of scenario C: only `submission-v2/app/index.html`. -/
def nestedTree : Node :=
  .dir "review".toList none
    [.dir "submission-v2".toList none [.dir "app".toList none [.file indexName]]]

/-- A tree with an unreadable directory, an entry `os.Lstat` fails on, and
two marker files at different depths. -/
def mixedTree : Node :=
  .dir "review".toList none
    [.broken "gone".toList "lstat failed".toList,
     .dir "locked".toList (some "permission denied".toList) [.file indexName],
     .dir "site".toList none [.dir "src".toList none [.file indexName], .file manifestName]]

/-! ## Lemmas on the loop -/

theorem extractLoop_cons (unmarshal : GoString → Option PackageJSON) (dest : GoString)
    (f : ZipEntry) (rest : List ZipEntry) (h : Bool) :
    extractLoop unmarshal dest (f :: rest) h =
      match (entryStep unmarshal dest f).1 with
      | some err => (some err, (entryStep unmarshal dest f).2)
      | none => logged (entryStep unmarshal dest f).2
          (extractLoop unmarshal dest rest (h || HasSuffix f.Name htmlSuffix)) := by
  have hb : (if HasSuffix f.Name htmlSuffix = true then true else h)
      = (h || HasSuffix f.Name htmlSuffix) := by
    cases h <;> cases HasSuffix f.Name htmlSuffix <;> rfl
  simp only [extractLoop, entryStep, hb]
  by_cases h1 : Contains f.Name nodeModulesMarker = true
  · simp [h1]
  · simp only [h1, if_false, Bool.false_eq_true]
    by_cases h2 : HasPrefix (Join dest f.Name) (Clean dest ++ sep) = true
    · simp only [h2, Bool.not_true, Bool.false_eq_true, if_false]
      by_cases h3 : f.IsDir = true
      · simp [h3]
      · simp only [h3, if_false, Bool.false_eq_true]
        cases f.mkdirErr with
        | some e => simp
        | none =>
          cases f.openFileErr with
          | some e => simp
          | none =>
            cases f.openErr with
            | some e => simp
            | none =>
              cases (if HasSuffix f.Name manifestSuffix = true
                      then checkFrameworks unmarshal f.Content else none) with
              | some e => simp
              | none =>
                cases f.copyErr with
                | some e => simp
                | none => simp
    · simp [h2, logged]

theorem logged_fst (ops : List FsOp) (r : Outcome) : (logged ops r).1 = r.1 := rfl

theorem logged_snd (ops : List FsOp) (r : Outcome) : (logged ops r).2 = ops ++ r.2 := rfl

theorem logged_nil (r : Outcome) : logged [] r = r := rfl

theorem logged_logged (a b : List FsOp) (r : Outcome) :
    logged a (logged b r) = logged (a ++ b) r := by
  simp [logged, List.append_assoc]

theorem extractLoop_cons_passes (unmarshal : GoString → Option PackageJSON)
    (dest : GoString) (f : ZipEntry) (rest : List ZipEntry) (h : Bool)
    (hp : passes unmarshal dest f) :
    extractLoop unmarshal dest (f :: rest) h =
      logged (entryStep unmarshal dest f).2
        (extractLoop unmarshal dest rest (h || HasSuffix f.Name htmlSuffix)) := by
  rw [extractLoop_cons]
  unfold passes at hp
  rw [hp]

theorem extractLoop_cons_abort (unmarshal : GoString → Option PackageJSON)
    (dest : GoString) (f : ZipEntry) (rest : List ZipEntry) (h : Bool) (err : GoString)
    (hp : (entryStep unmarshal dest f).1 = some err) :
    extractLoop unmarshal dest (f :: rest) h = (some err, (entryStep unmarshal dest f).2) := by
  rw [extractLoop_cons, hp]

/-- While every entry passes, the loop only collects calls and the flag. -/
theorem extractLoop_append_passes (unmarshal : GoString → Option PackageJSON)
    (dest : GoString) (pre rest : List ZipEntry) (h : Bool)
    (hp : ∀ e ∈ pre, passes unmarshal dest e) :
    extractLoop unmarshal dest (pre ++ rest) h =
      logged (opsOf unmarshal dest pre)
        (extractLoop unmarshal dest rest (h || anyHTML pre)) := by
  induction pre generalizing h with
  | nil => simp [opsOf, anyHTML, logged]
  | cons f pre ih =>
    have hf : passes unmarshal dest f := hp f (List.mem_cons_self _ _)
    have hrest : ∀ e ∈ pre, passes unmarshal dest e :=
      fun e he => hp e (List.mem_cons_of_mem _ he)
    rw [List.cons_append, extractLoop_cons_passes _ _ _ _ _ hf, ih _ hrest, logged_logged]
    simp [opsOf, anyHTML, Bool.or_assoc]

/-- A run over entries that all pass ends in the entry-point check. -/
theorem extractLoop_all_pass (unmarshal : GoString → Option PackageJSON)
    (dest : GoString) (fs : List ZipEntry) (h : Bool)
    (hp : ∀ e ∈ fs, passes unmarshal dest e) :
    extractLoop unmarshal dest fs h =
      (if (h || anyHTML fs) then none else some noHTMLError, opsOf unmarshal dest fs) := by
  have := extractLoop_append_passes unmarshal dest fs [] h hp
  rw [List.append_nil] at this
  rw [this]
  cases hb : (h || anyHTML fs) <;> simp [extractLoop, logged]

/-- An entry whose body returns an error makes the whole run return one. -/
theorem extractLoop_isSome_of_abort (unmarshal : GoString → Option PackageJSON)
    (dest : GoString) (pre : List ZipEntry) (f : ZipEntry) (post : List ZipEntry) (h : Bool)
    (hf : ¬ passes unmarshal dest f) :
    (extractLoop unmarshal dest (pre ++ f :: post) h).1.isSome = true := by
  induction pre generalizing h with
  | nil =>
    unfold passes at hf
    rw [List.nil_append, extractLoop_cons]
    cases hs : (entryStep unmarshal dest f).1 with
    | none => exact absurd hs hf
    | some err => rfl
  | cons g pre ih =>
    rw [List.cons_append, extractLoop_cons]
    cases hs : (entryStep unmarshal dest g).1 with
    | none => simpa [logged] using ih _
    | some err => rfl

/-- A run in which the first failing entry is `f` returns that entry's error. -/
theorem extractLoop_first_abort (unmarshal : GoString → Option PackageJSON)
    (dest : GoString) (pre : List ZipEntry) (f : ZipEntry) (post : List ZipEntry) (h : Bool)
    (err : GoString) (hp : ∀ e ∈ pre, passes unmarshal dest e)
    (hf : (entryStep unmarshal dest f).1 = some err) :
    extractLoop unmarshal dest (pre ++ f :: post) h =
      (some err, opsOf unmarshal dest pre ++ (entryStep unmarshal dest f).2) := by
  rw [extractLoop_append_passes _ _ _ _ _ hp, extractLoop_cons_abort _ _ _ _ _ _ hf]
  rfl

/-- An entry that fails without a call leaves the calls of the entries before it. -/
theorem extractLoop_log_of_silent_abort (unmarshal : GoString → Option PackageJSON)
    (dest : GoString) (pre : List ZipEntry) (f : ZipEntry) (post : List ZipEntry) (h : Bool)
    (hf : ¬ passes unmarshal dest f) (hops : (entryStep unmarshal dest f).2 = []) :
    (extractLoop unmarshal dest (pre ++ f :: post) h).2
      = (extractLoop unmarshal dest pre h).2 := by
  induction pre generalizing h with
  | nil =>
    unfold passes at hf
    rw [List.nil_append, extractLoop_cons]
    cases hs : (entryStep unmarshal dest f).1 with
    | none => exact absurd hs hf
    | some err =>
      simp only [hops]
      cases h <;> rfl
  | cons g pre ih =>
    rw [List.cons_append, extractLoop_cons, extractLoop_cons]
    cases hs : (entryStep unmarshal dest g).1 with
    | none => simp only [logged_snd, ih]
    | some err => rfl

/-- An entry that passes without a call and without setting the flag can be dropped. -/
theorem extractLoop_drop (unmarshal : GoString → Option PackageJSON)
    (dest : GoString) (pre : List ZipEntry) (f : ZipEntry) (post : List ZipEntry) (h : Bool)
    (hf : entryStep unmarshal dest f = (none, []))
    (hhtml : HasSuffix f.Name htmlSuffix = false) :
    extractLoop unmarshal dest (pre ++ f :: post) h
      = extractLoop unmarshal dest (pre ++ post) h := by
  induction pre generalizing h with
  | nil =>
    rw [List.nil_append, List.nil_append, extractLoop_cons, hf, hhtml]
    simp [logged]
  | cons g pre ih =>
    rw [List.cons_append, List.cons_append, extractLoop_cons, extractLoop_cons]
    cases hs : (entryStep unmarshal dest g).1 with
    | none => simp only [ih]
    | some err => rfl

/-- Two entries with the same name, body result and calls are interchangeable. -/
theorem extractLoop_swap (unmarshal : GoString → Option PackageJSON)
    (dest : GoString) (pre : List ZipEntry) (f g : ZipEntry) (post : List ZipEntry) (h : Bool)
    (hstep : entryStep unmarshal dest f = entryStep unmarshal dest g)
    (hname : f.Name = g.Name) :
    extractLoop unmarshal dest (pre ++ f :: post) h
      = extractLoop unmarshal dest (pre ++ g :: post) h := by
  induction pre generalizing h with
  | nil =>
    rw [List.nil_append, List.nil_append, extractLoop_cons, extractLoop_cons, hstep, hname]
  | cons k pre ih =>
    rw [List.cons_append, List.cons_append, extractLoop_cons, extractLoop_cons]
    cases hs : (entryStep unmarshal dest k).1 with
    | none => simp only [ih]
    | some err => rfl

theorem extractAndValidateZip_opens (unmarshal : GoString → Option PackageJSON)
    (files : List ZipEntry) (zipPath dest : GoString) :
    extractAndValidateZip unmarshal (opens files) zipPath dest
      = extractLoop unmarshal dest files false := rfl

/-! ## Lemmas on `checkFrameworks` -/

theorem checkLoop_eq_find (pkg : PackageJSON) (l : List GoString) :
    checkLoop pkg l = (l.find? (declares pkg)).map frameworkError := by
  induction l with
  | nil => rfl
  | cons fw rest ih =>
    simp only [checkLoop, List.find?_cons, declares]
    cases h1 : (pkg.Dependencies fw).isSome <;> cases h2 : (pkg.DevDependencies fw).isSome <;>
      simp [ih, declares]

theorem checkLoop_isSome_iff (pkg : PackageJSON) (l : List GoString) :
    (checkLoop pkg l).isSome = true ↔ ∃ fw ∈ l, declares pkg fw = true := by
  rw [checkLoop_eq_find]
  simp [List.find?_isSome]

theorem checkLoop_congr (pkg pkg2 : PackageJSON) (l : List GoString)
    (h : ∀ k, declares pkg2 k = declares pkg k) :
    checkLoop pkg2 l = checkLoop pkg l := by
  rw [checkLoop_eq_find, checkLoop_eq_find]
  have : declares pkg2 = declares pkg := funext h
  rw [this]

theorem checkLoop_some_first (pkg : PackageJSON) (l : List GoString) (err : GoString)
    (herr : checkLoop pkg l = some err) :
    ∃ before fw after, l = before ++ fw :: after ∧
      (∀ x ∈ before, declares pkg x = false) ∧ declares pkg fw = true ∧
      err = frameworkError fw := by
  rw [checkLoop_eq_find] at herr
  cases hfind : List.find? (declares pkg) l with
  | none => simp [hfind] at herr
  | some fw =>
    simp only [hfind, Option.map_some', Option.some.injEq] at herr
    obtain ⟨hfw, before, after, hsplit, hbefore⟩ := List.find?_eq_some.mp hfind
    refine ⟨before, fw, after, hsplit, ?_, hfw, herr.symm⟩
    intro x hx
    simpa using hbefore x hx

theorem checkFrameworks_of_parse (unmarshal : GoString → Option PackageJSON)
    (content : GoString) (pkg : PackageJSON) (h : unmarshal content = some pkg) :
    checkFrameworks unmarshal content = checkLoop pkg forbiddenFrameworks := by
  simp [checkFrameworks, h]

theorem checkFrameworks_of_error (unmarshal : GoString → Option PackageJSON)
    (content : GoString) (h : unmarshal content = none) :
    checkFrameworks unmarshal content = none := by
  simp [checkFrameworks, h]

theorem extractLoop_isSome_of_no_html (unmarshal : GoString → Option PackageJSON)
    (dest : GoString) (fs : List ZipEntry)
    (h : ∀ e ∈ fs, HasSuffix e.Name htmlSuffix = false) :
    (extractLoop unmarshal dest fs false).1.isSome = true := by
  induction fs with
  | nil => rfl
  | cons f rest ih =>
    rw [extractLoop_cons]
    cases hs : (entryStep unmarshal dest f).1 with
    | some err => rfl
    | none =>
      have hf := h f (List.mem_cons_self _ _)
      simp only [hf, Bool.or_false, logged_fst]
      exact ih (fun e he => h e (List.mem_cons_of_mem _ he))

theorem anyHTML_eq_false (fs : List ZipEntry) :
    anyHTML fs = false ↔ ∀ e ∈ fs, HasSuffix e.Name htmlSuffix = false := by
  simp [anyHTML]

theorem anyHTML_eq_true (fs : List ZipEntry) :
    anyHTML fs = true ↔ ∃ e ∈ fs, HasSuffix e.Name htmlSuffix = true := by
  simp [anyHTML]

theorem entryStep_guard_fails (unmarshal : GoString → Option PackageJSON)
    (dest : GoString) (f : ZipEntry) (hmark : Contains f.Name nodeModulesMarker = false)
    (hguard : guardOK dest f.Name = false) :
    entryStep unmarshal dest f = (none, []) := by
  unfold guardOK at hguard
  simp [entryStep, hmark, hguard]

theorem entryStep_marker (unmarshal : GoString → Option PackageJSON)
    (dest : GoString) (f : ZipEntry) (hmark : Contains f.Name nodeModulesMarker = true) :
    entryStep unmarshal dest f = (some nodeModulesError, []) := by
  simp [entryStep, hmark]

/-! ## Lemmas on strings -/

theorem splitSep_ne_nil (s : GoString) : splitSep s ≠ [] := by
  cases s with
  | nil => simp [splitSep]
  | cons c cs =>
    simp only [splitSep]
    split
    · simp
    · split <;> simp

theorem splitSep_head_sep (s h : GoString) (t : List GoString)
    (hs : splitSep s = h :: t) (ht : t ≠ []) : (h ++ ['/']).isPrefixOf s = true := by
  induction s generalizing h t with
  | nil => simp [splitSep] at hs; exact absurd hs.2 ht
  | cons c cs ih =>
    simp only [splitSep] at hs
    by_cases hc : c = '/'
    · simp only [hc, if_true, List.cons.injEq] at hs
      subst hc
      rw [← hs.1]
      simp [List.isPrefixOf]
    · simp only [hc, if_false] at hs
      cases hcs : splitSep cs with
      | nil => exact absurd hcs (splitSep_ne_nil cs)
      | cons h2 t2 =>
        rw [hcs] at hs
        simp only [List.cons.injEq] at hs
        obtain ⟨h1, h3⟩ := hs
        subst h1; subst h3
        have := ih h2 t2 hcs ht
        simpa [List.isPrefixOf] using this

theorem Contains_of_tail (c : Char) (cs sub : GoString) (h : Contains cs sub = true) :
    Contains (c :: cs) sub = true := by
  simp [Contains, h]

theorem Contains_of_dir_segment (s seg : GoString) (h : seg ∈ (splitSep s).dropLast) :
    Contains s (seg ++ ['/']) = true := by
  induction s with
  | nil => simp [splitSep] at h
  | cons c cs ih =>
    cases hcs : splitSep cs with
    | nil => exact absurd hcs (splitSep_ne_nil cs)
    | cons h2 t2 =>
      by_cases hc : c = '/'
      · subst hc
        simp only [splitSep, if_true, hcs, List.dropLast_cons₂, List.mem_cons] at h
        rcases h with h | h
        · subst h
          simp [Contains, List.isPrefixOf]
        · apply Contains_of_tail
          apply ih
          rw [hcs]; exact h
      · simp only [splitSep, hc, if_false, hcs] at h
        cases t2 with
        | nil => simp at h
        | cons t3 t4 =>
          simp only [List.dropLast_cons₂, List.mem_cons] at h
          rcases h with h | h
          · subst h
            have := splitSep_head_sep cs h2 (t3 :: t4) hcs (by simp)
            have hpre : (c :: h2 ++ ['/']).isPrefixOf (c :: cs) = true := by
              simpa [List.isPrefixOf] using this
            simp only [Contains, hpre, Bool.true_or]
          · apply Contains_of_tail
            apply ih
            rw [hcs]
            simp only [List.dropLast_cons₂, List.mem_cons]
            exact Or.inr h
/-! ## Lemmas on the loop body -/

theorem checkFrameworks_isSome_iff (unmarshal : GoString → Option PackageJSON)
    (content : GoString) :
    (checkFrameworks unmarshal content).isSome = true ↔
      ∃ pkg fw, unmarshal content = some pkg ∧ fw ∈ forbiddenFrameworks ∧
        declares pkg fw = true := by
  unfold checkFrameworks
  cases h : unmarshal content with
  | none => simp
  | some pkg =>
    simp only [checkLoop_isSome_iff]
    constructor
    · rintro ⟨fw, h1, h2⟩; exact ⟨pkg, fw, rfl, h1, h2⟩
    · rintro ⟨pkg2, fw, h0, h1, h2⟩
      cases h0
      exact ⟨fw, h1, h2⟩

/-- A manifest that is reached and reported stops the loop, whatever the calls return. -/
theorem not_passes_of_manifest (unmarshal : GoString → Option PackageJSON)
    (dest : GoString) (f : ZipEntry) (hname : HasSuffix f.Name manifestSuffix = true)
    (hguard : guardOK dest f.Name = true) (hfile : f.IsDir = false)
    (hcheck : (checkFrameworks unmarshal f.Content).isSome = true) :
    ¬ passes unmarshal dest f := by
  unfold passes guardOK at *
  obtain ⟨err, herr⟩ := Option.isSome_iff_exists.mp hcheck
  simp only [entryStep, hguard, hfile, hname, herr]
  by_cases h1 : Contains f.Name nodeModulesMarker = true
  · simp [h1]
  · simp only [h1, Bool.false_eq_true, if_false, Bool.not_true, if_true]
    cases f.mkdirErr <;> cases f.openFileErr <;> cases f.openErr <;> simp

/-- A manifest that is reached without a failing call returns the check's error. -/
theorem entryStep_manifest (unmarshal : GoString → Option PackageJSON)
    (dest : GoString) (f : ZipEntry) (err : GoString)
    (hmark : Contains f.Name nodeModulesMarker = false)
    (hname : HasSuffix f.Name manifestSuffix = true)
    (hguard : guardOK dest f.Name = true) (hfile : f.IsDir = false)
    (h1 : f.mkdirErr = none) (h2 : f.openFileErr = none) (h3 : f.openErr = none)
    (hcheck : checkFrameworks unmarshal f.Content = some err) :
    (entryStep unmarshal dest f).1 = some err := by
  unfold guardOK at hguard
  simp [entryStep, hmark, hguard, hfile, hname, hcheck, h1, h2, h3]

/-- Without a failing call, the loop body passes an entry that holds no
marker and is not a manifest that is reached and reported. -/
theorem passes_of_clean (unmarshal : GoString → Option PackageJSON)
    (dest : GoString) (f : ZipEntry) (hio : ioClean f)
    (hmark : Contains f.Name nodeModulesMarker = false)
    (hman : ¬ (HasSuffix f.Name manifestSuffix = true ∧ guardOK dest f.Name = true ∧
      f.IsDir = false ∧ (checkFrameworks unmarshal f.Content).isSome = true)) :
    passes unmarshal dest f := by
  obtain ⟨h1, h2, h3, h4⟩ := hio
  unfold passes guardOK at *
  simp only [entryStep, hmark, h1, h2, h3, h4, Bool.false_eq_true, if_false]
  by_cases hg : HasPrefix (Join dest f.Name) (Clean dest ++ sep) = true
  · by_cases hd : f.IsDir = true
    · simp [hg, hd]
    · have hd2 : f.IsDir = false := by simpa using hd
      by_cases hn : HasSuffix f.Name manifestSuffix = true
      · cases hc : checkFrameworks unmarshal f.Content with
        | none => simp [hg, hd2, hn, hc]
        | some err => exact absurd ⟨hn, hg, hd2, by simp [hc]⟩ hman
      · simp [hg, hd2, hn]
  · simp [hg]

/-! ## Lemmas on `strings.Split` and `strings.Join` -/

theorem splitSep_no_sep (s : GoString) : ∀ x ∈ splitSep s, '/' ∉ x := by
  induction s with
  | nil => simp [splitSep]
  | cons c cs ih =>
    intro x hx
    by_cases hc : c = '/'
    · simp only [splitSep, hc, if_true, List.mem_cons] at hx
      rcases hx with rfl | hx
      · simp
      · exact ih x hx
    · simp only [splitSep, hc, if_false] at hx
      cases hcs : splitSep cs with
      | nil => exact absurd hcs (splitSep_ne_nil cs)
      | cons h t =>
        rw [hcs] at hx ih
        simp only [List.mem_cons] at hx
        rcases hx with rfl | hx
        · intro hmem
          simp only [List.mem_cons] at hmem
          rcases hmem with hmem | hmem
          · exact hc hmem.symm
          · exact ih h (List.mem_cons_self _ _) hmem
        · exact ih x (List.mem_cons_of_mem _ hx)

theorem splitSep_of_no_sep (x : GoString) (hx : '/' ∉ x) : splitSep x = [x] := by
  induction x with
  | nil => rfl
  | cons c cs ih =>
    have hc : c ≠ '/' := fun h => hx (by simp [h])
    have hcs : '/' ∉ cs := fun h => hx (List.mem_cons_of_mem _ h)
    simp [splitSep, hc, ih hcs]

theorem splitSep_append_sep (a b : GoString) :
    splitSep (a ++ '/' :: b) = splitSep a ++ splitSep b := by
  induction a with
  | nil => simp [splitSep]
  | cons c cs ih =>
    by_cases hc : c = '/'
    · simp [splitSep, hc, ih]
    · simp only [List.cons_append, splitSep, hc, if_false, List.append_eq]
      rw [ih]
      cases hcs : splitSep cs with
      | nil => exact absurd hcs (splitSep_ne_nil cs)
      | cons h t => simp

theorem joinSep_concat (l : List GoString) (x : GoString) (hl : l ≠ []) :
    joinSep (l ++ [x]) = joinSep l ++ '/' :: x := by
  induction l with
  | nil => exact absurd rfl hl
  | cons a rest ih =>
    cases rest with
    | nil => simp [joinSep]
    | cons b rest2 =>
      have := ih (by simp)
      simp only [List.cons_append] at this ⊢
      simp [joinSep, this]

theorem splitSep_joinSep (l : List GoString) (hl : l ≠ []) (h : ∀ x ∈ l, '/' ∉ x) :
    splitSep (joinSep l) = l := by
  induction l with
  | nil => exact absurd rfl hl
  | cons a rest ih =>
    cases rest with
    | nil => simpa [joinSep] using splitSep_of_no_sep a (h a (List.mem_cons_self _ _))
    | cons b rest2 =>
      have h1 := ih (by simp) (fun x hx => h x (List.mem_cons_of_mem _ hx))
      simp only [joinSep] at h1 ⊢
      rw [splitSep_append_sep, h1, splitSep_of_no_sep a (h a (List.mem_cons_self _ _))]
      rfl

theorem isRooted_append (a b : GoString) (ha : a ≠ []) : isRooted (a ++ b) = isRooted a := by
  cases a with
  | nil => exact absurd rfl ha
  | cons c cs => rfl

/-! ## Lemmas on `filepath.Clean` -/

theorem isElem_dotdot : isElem dotdot := by
  refine ⟨?_, ?_, ?_⟩ <;> simp [dotdot]

theorem isElem_of_validName (n : GoString) (h : validName n) : isElem n :=
  ⟨h.1, h.2.1, h.2.2.1⟩

theorem cleanStep_push (r : Bool) (out : List GoString) (n : GoString) (h : validName n) :
    cleanStep r out n = n :: out := by
  obtain ⟨h1, _, h3, h4⟩ := h
  simp [cleanStep, h1, h3, h4]

theorem okStack_push (r : Bool) (out : List GoString) (n : GoString) (h : validName n)
    (hout : okStack r out) : okStack r (n :: out) :=
  ⟨isElem_of_validName n h, fun hd => absurd hd h.2.2.2, hout⟩

theorem cleanStep_ok (r : Bool) (out : List GoString) (e : GoString) (he : '/' ∉ e)
    (hout : okStack r out) : okStack r (cleanStep r out e) := by
  unfold cleanStep
  by_cases h1 : e = []
  · simp [h1, hout]
  · by_cases h2 : e = ['.']
    · simp [h2, hout]
    · by_cases h3 : e = ['.', '.']
      · subst h3
        cases out with
        | nil =>
          cases r
          · exact ⟨isElem_dotdot, fun _ => ⟨rfl, by simp⟩, trivial⟩
          · exact trivial
        | cons top below =>
          by_cases h4 : top = ['.', '.']
          · subst h4
            have h22 := hout.2.2
            obtain ⟨_, hdd, _⟩ := hout
            obtain ⟨hr, hall⟩ := hdd rfl
            simp only [if_true, okStack, List.cons_ne_nil, if_false]
            refine ⟨isElem_dotdot, fun _ => ⟨hr, ?_⟩, isElem_dotdot, fun _ => ⟨hr, hall⟩, ?_⟩
            · intro x hx
              rcases List.mem_cons.mp hx with rfl | hx
              · rfl
              · exact hall x hx
            · exact h22
          · simp only [h4, if_false, List.cons_ne_nil]
            simpa using hout.2.2
      · simp only [h1, h2, h3, if_false]
        exact ⟨⟨h1, he, h2⟩, fun hd => absurd hd h3, hout⟩

theorem foldl_cleanStep_ok (r : Bool) (l : List GoString) (out : List GoString)
    (hl : ∀ x ∈ l, '/' ∉ x) (hout : okStack r out) :
    okStack r (l.foldl (cleanStep r) out) := by
  induction l generalizing out with
  | nil => exact hout
  | cons e rest ih =>
    exact ih _ (fun x hx => hl x (List.mem_cons_of_mem _ hx))
      (cleanStep_ok r out e (hl e (List.mem_cons_self _ _)) hout)

theorem cleanElems_ok (p : GoString) : okStack (isRooted p) (cleanElems p) :=
  foldl_cleanStep_ok _ _ _ (splitSep_no_sep p) trivial

theorem okStack_no_sep (r : Bool) (st : List GoString) (h : okStack r st) :
    ∀ x ∈ st, '/' ∉ x := by
  induction st with
  | nil => simp
  | cons c below ih =>
    intro x hx
    rcases List.mem_cons.mp hx with rfl | hx
    · exact h.1.2.1
    · exact ih h.2.2 x hx

theorem okStack_ne_nil (r : Bool) (st : List GoString) (h : okStack r st) :
    ∀ x ∈ st, x ≠ [] := by
  induction st with
  | nil => simp
  | cons c below ih =>
    intro x hx
    rcases List.mem_cons.mp hx with rfl | hx
    · exact h.1.1
    · exact ih h.2.2 x hx

/-- Cleaning the written elements again, first written first, rebuilds them. -/
theorem foldl_cleanStep_reverse (r : Bool) (st : List GoString) (h : okStack r st) :
    st.reverse.foldl (cleanStep r) [] = st := by
  induction st with
  | nil => rfl
  | cons c below ih =>
    rw [List.reverse_cons, List.foldl_append, ih h.2.2]
    simp only [List.foldl_cons, List.foldl_nil]
    obtain ⟨⟨h1, _, h3⟩, hdd, _⟩ := h
    by_cases h4 : c = ['.', '.']
    · obtain ⟨hr, hall⟩ := hdd h4
      subst h4
      cases below with
      | nil => simp [cleanStep, hr]
      | cons top rest =>
        have : top = ['.', '.'] := hall top (List.mem_cons_self _ _)
        simp [cleanStep, this]
    · simp [cleanStep, h1, h3, h4]

theorem isRooted_of_no_sep (b : GoString) (h : '/' ∉ b) : isRooted b = false := by
  cases b with
  | nil => rfl
  | cons c cs =>
    have : c ≠ '/' := fun hc => h (by simp [hc])
    simp [isRooted, this]

theorem isRooted_joinSep (b : GoString) (l : List GoString) (hb : b ≠ []) :
    isRooted (joinSep (b :: l)) = isRooted b := by
  cases l with
  | nil => rfl
  | cons a rest => simp only [joinSep]; exact isRooted_append _ _ hb

theorem render_ne_nil (r : Bool) (st : List GoString) (h : okStack r st) :
    render r st ≠ [] := by
  unfold render
  cases r
  · cases st with
    | nil => simp
    | cons c below =>
      simp only [Bool.false_eq_true, if_false, List.cons_ne_nil]
      have hne : (c :: below).reverse ≠ [] := by simp
      cases hrev : (c :: below).reverse with
      | nil => exact absurd hrev hne
      | cons b rest =>
        have hb : b ≠ [] := okStack_ne_nil _ _ h b (by
          have : b ∈ (c :: below).reverse := by rw [hrev]; exact List.mem_cons_self _ _
          exact List.mem_reverse.mp this)
        cases rest with
        | nil => simpa [joinSep] using hb
        | cons a rest2 => simp [joinSep, hb]
  · simp

theorem render_cons (r : Bool) (n : GoString) (st : List GoString) (hst : st ≠ []) :
    render r (n :: st) = render r st ++ '/' :: n := by
  have hrev : st.reverse ≠ [] := by simpa using hst
  unfold render
  cases r
  · simp [hst, joinSep_concat _ _ hrev]
  · simp [joinSep_concat _ _ hrev]

theorem render_singleton (r : Bool) (n : GoString) :
    render r [n] = if r then '/' :: n else n := by
  cases r <;> simp [render, joinSep]

theorem isRooted_render (r : Bool) (st : List GoString) (h : okStack r st) :
    isRooted (render r st) = r := by
  cases r
  · cases st with
    | nil => rfl
    | cons c below =>
      have hne : (c :: below).reverse ≠ [] := by simp
      simp only [render, Bool.false_eq_true, if_false, List.cons_ne_nil]
      cases hrev : (c :: below).reverse with
      | nil => exact absurd hrev hne
      | cons b rest =>
        have hmem : b ∈ c :: below := by
          have : b ∈ (c :: below).reverse := by rw [hrev]; exact List.mem_cons_self _ _
          exact List.mem_reverse.mp this
        rw [isRooted_joinSep _ _ (okStack_ne_nil _ _ h b hmem)]
        exact isRooted_of_no_sep b (okStack_no_sep _ _ h b hmem)
  · simp [render, isRooted]

theorem cleanStep_nil (r : Bool) (out : List GoString) : cleanStep r out [] = out := by
  simp [cleanStep]

theorem cleanElems_render (r : Bool) (st : List GoString) (h : okStack r st) :
    cleanElems (render r st) = st := by
  unfold cleanElems
  rw [isRooted_render r st h]
  have hns : ∀ x ∈ st.reverse, '/' ∉ x := fun x hx =>
    okStack_no_sep _ _ h x (by simpa using hx)
  cases r
  · cases st with
    | nil => simp [render, splitSep, cleanStep]
    | cons c below =>
      have hne : (c :: below).reverse ≠ [] := by simp
      simp only [render, Bool.false_eq_true, if_false, List.cons_ne_nil]
      rw [splitSep_joinSep _ hne hns]
      exact foldl_cleanStep_reverse _ _ h
  · cases st with
    | nil => simp [render, splitSep, joinSep, cleanStep]
    | cons c below =>
      have hne : (c :: below).reverse ≠ [] := by simp
      simp only [render, if_true, splitSep]
      rw [splitSep_joinSep _ hne hns]
      simp only [List.foldl_cons, cleanStep_nil]
      exact foldl_cleanStep_reverse _ _ h

/-- A cleaned path is left unchanged by `filepath.Clean`. -/
theorem Clean_render (r : Bool) (st : List GoString) (h : okStack r st) :
    Clean (render r st) = render r st := by
  unfold Clean
  rw [isRooted_render r st h, cleanElems_render r st h]

theorem Clean_Clean (p : GoString) : Clean (Clean p) = Clean p :=
  Clean_render _ _ (cleanElems_ok p)

theorem Clean_ne_nil (p : GoString) : Clean p ≠ [] :=
  render_ne_nil _ _ (cleanElems_ok p)

theorem Clean_append_sep (q : GoString) (hq : q ≠ []) : Clean (q ++ ['/']) = Clean q := by
  unfold Clean cleanElems
  rw [isRooted_append _ _ hq, splitSep_append_sep, List.foldl_append]
  simp [splitSep, cleanStep]

theorem cleanElems_append_name (p n : GoString) (hp : p ≠ []) (hn : validName n) :
    cleanElems (p ++ '/' :: n) = n :: cleanElems p := by
  unfold cleanElems
  rw [isRooted_append _ _ hp, splitSep_append_sep, List.foldl_append,
    splitSep_of_no_sep n hn.2.1]
  simp only [List.foldl_cons, List.foldl_nil]
  exact cleanStep_push _ _ _ hn

theorem Join_name (p n : GoString) (hn : validName n) :
    Join p n = render (isRooted p) (n :: cleanElems p) := by
  unfold Join
  by_cases hp : p = []
  · subst hp
    simp only [ne_eq, not_true_eq_false, if_false, hn.1, not_false_eq_true, if_true]
    unfold Clean cleanElems
    rw [isRooted_of_no_sep n hn.2.1, splitSep_of_no_sep n hn.2.1]
    simp only [List.foldl_cons, List.foldl_nil, cleanStep_push _ _ _ hn]
    simp [isRooted, splitSep, cleanStep]
  · simp only [ne_eq, hp, not_false_eq_true, if_true]
    unfold Clean
    rw [isRooted_append _ _ hp, cleanElems_append_name _ _ hp hn]

theorem dropWhile_not_sep (l rest : GoString) (hl : '/' ∉ l) :
    (l ++ '/' :: rest).dropWhile (fun c => decide (c ≠ '/')) = '/' :: rest := by
  induction l with
  | nil => simp
  | cons c cs ih =>
    have hc : c ≠ '/' := fun h => hl (by simp [h])
    have hcs : '/' ∉ cs := fun h => hl (List.mem_cons_of_mem _ h)
    have := ih hcs
    simp only [List.cons_append, List.dropWhile_cons, ne_eq, hc, not_false_eq_true,
      decide_True, if_true]
    exact this

theorem dropWhile_not_sep_all (l : GoString) (hl : '/' ∉ l) :
    l.dropWhile (fun c => decide (c ≠ '/')) = [] := by
  induction l with
  | nil => rfl
  | cons c cs ih =>
    have hc : c ≠ '/' := fun h => hl (by simp [h])
    have hcs : '/' ∉ cs := fun h => hl (List.mem_cons_of_mem _ h)
    have := ih hcs
    simp only [List.dropWhile_cons, ne_eq, hc, not_false_eq_true, decide_True, if_true]
    exact this

theorem dirPart_append (x n : GoString) (hn : '/' ∉ n) :
    dirPart (x ++ '/' :: n) = x ++ ['/'] := by
  unfold dirPart
  have hrev : '/' ∉ n.reverse := by simpa using hn
  rw [List.reverse_append, List.reverse_cons, List.append_assoc, List.singleton_append,
    dropWhile_not_sep _ _ hrev]
  simp

theorem dirPart_of_no_sep (n : GoString) (hn : '/' ∉ n) : dirPart n = [] := by
  unfold dirPart
  have hrev : '/' ∉ n.reverse := by simpa using hn
  rw [dropWhile_not_sep_all _ hrev]
  rfl

/-- The directory of a cleaned path is the cleaned path without its last element. -/
theorem Dir_render_cons (r : Bool) (n : GoString) (st : List GoString)
    (h : okStack r (n :: st)) : Dir (render r (n :: st)) = render r st := by
  have hn : '/' ∉ n := h.1.2.1
  unfold Dir
  cases st with
  | nil =>
    cases r
    · rw [render_singleton]
      simp only [Bool.false_eq_true, if_false]
      rw [dirPart_of_no_sep n hn]
      rfl
    · rw [render_singleton]
      simp only [if_true]
      have := dirPart_append [] n hn
      simp only [List.nil_append] at this
      rw [this]
      rfl
  | cons c below =>
    rw [render_cons r n (c :: below) (by simp), dirPart_append _ _ hn,
      Clean_append_sep _ (render_ne_nil _ _ h.2.2), Clean_render _ _ h.2.2]

theorem concat_isPrefix_concat (x : Char) (a b n : GoString) (hn : x ∉ n)
    (h : a ++ [x] <+: b ++ x :: n) : a ++ [x] <+: b ++ [x] := by
  induction b generalizing a with
  | nil =>
    cases a with
    | nil => simp
    | cons y a2 =>
      simp only [List.cons_append, List.nil_append, List.cons_prefix_cons] at h
      have hmem : x ∈ a2 ++ [x] := by simp
      exact absurd (h.2.subset hmem) hn
  | cons z b2 ih =>
    cases a with
    | nil =>
      simp only [List.nil_append, List.cons_append, List.cons_prefix_cons] at h ⊢
      exact ⟨h.1, List.nil_prefix⟩
    | cons y a2 =>
      simp only [List.cons_append, List.cons_prefix_cons] at h ⊢
      exact ⟨h.1, ih a2 h.2⟩

/-- The directory of a cleaned path that lies under `c` is `c` or lies under `c`. -/
theorem Dir_render_inside (r : Bool) (st : List GoString) (c : GoString)
    (h : okStack r st) (hc : c ≠ [])
    (hpre : HasPrefix (render r st) (c ++ sep) = true) :
    Dir (render r st) = c ∨ HasPrefix (Dir (render r st)) (c ++ sep) = true := by
  unfold HasPrefix sep at *
  rw [List.isPrefixOf_iff_prefix] at hpre
  obtain ⟨c0, c1, rfl⟩ := List.exists_cons_of_ne_nil hc
  cases st with
  | nil =>
    cases r
    · simp only [render, Bool.false_eq_true, if_false, if_true, List.cons_append,
        List.cons_prefix_cons] at hpre
      have := hpre.2
      simp at this
    · simp only [render, if_true, List.reverse_nil, joinSep, List.cons_append,
        List.cons_prefix_cons] at hpre
      have := hpre.2
      simp at this
  | cons n below =>
    have hn : '/' ∉ n := h.1.2.1
    rw [Dir_render_cons r n below h]
    cases below with
    | nil =>
      rw [render_singleton] at hpre
      cases r
      · simp only [Bool.false_eq_true, if_false] at hpre
        have hmem : '/' ∈ c0 :: c1 ++ ['/'] := by simp
        exact absurd (hpre.subset hmem) hn
      · simp only [if_true, List.cons_append, List.cons_prefix_cons] at hpre
        have hmem : '/' ∈ c1 ++ ['/'] := by simp
        exact absurd (hpre.2.subset hmem) hn
    | cons m rest =>
      rw [render_cons r n (m :: rest) (by simp)] at hpre
      have h2 := concat_isPrefix_concat '/' (c0 :: c1) (render r (m :: rest)) n hn hpre
      rcases List.prefix_concat_iff.mp h2 with heq | hlt
      · left
        exact (List.append_cancel_right heq).symm
      · right
        rw [List.isPrefixOf_iff_prefix]
        exact hlt

/-- The directory of a joined path that passes the path guard is the cleaned
destination or passes the guard itself. -/
theorem Dir_Join_inside (dest name : GoString)
    (hpre : HasPrefix (Join dest name) (Clean dest ++ sep) = true) :
    Dir (Join dest name) = Clean dest ∨
      HasPrefix (Dir (Join dest name)) (Clean dest ++ sep) = true := by
  have key : ∀ x : GoString, HasPrefix (Clean x) (Clean dest ++ sep) = true →
      Dir (Clean x) = Clean dest ∨ HasPrefix (Dir (Clean x)) (Clean dest ++ sep) = true :=
    fun x hx => Dir_render_inside _ _ _ (cleanElems_ok x) (Clean_ne_nil dest) hx
  unfold Join at hpre ⊢
  by_cases ha : dest = []
  · by_cases hb : name = []
    · simp only [ha, hb, ne_eq, not_true_eq_false, if_false] at hpre
      simp [HasPrefix, sep] at hpre
    · simp only [ha, hb, ne_eq, not_true_eq_false, if_false, not_false_eq_true, if_true]
        at hpre ⊢
      rw [← ha] at hpre ⊢
      exact key _ hpre
  · simp only [ne_eq, ha, not_false_eq_true, if_true] at hpre ⊢
    exact key _ hpre

/-! ## Lemmas on the walk -/

theorem okStack_append_valid (r : Bool) (ext st : List GoString)
    (hext : ∀ x ∈ ext, validName x) (hst : okStack r st) : okStack r (ext ++ st) := by
  induction ext with
  | nil => exact hst
  | cons n rest ih =>
    exact okStack_push r _ n (hext n (List.mem_cons_self _ _))
      (ih (fun x hx => hext x (List.mem_cons_of_mem _ hx)))

mutual
theorem walk_belowBase (r : Bool) (st : List GoString) (hst : okStack r st)
    (n : GoString) (ext : List GoString) (hn : validName n) (hext : ∀ x ∈ ext, validName x) :
    ∀ node : Node, node.wellNamed = true →
      ∀ v ∈ walk (render r (n :: (ext ++ st))) node, belowBase r st v
  | .file name, _, v, hv => by
    simp only [walk, List.mem_singleton] at hv
    subst hv
    exact ⟨n, ext, hn, hext, rfl⟩
  | .broken name err, _, v, hv => by
    simp only [walk, List.mem_singleton] at hv
    subst hv
    exact ⟨n, ext, hn, hext, rfl⟩
  | .dir name readErr children, hw, v, hv => by
    simp only [walk, List.mem_cons] at hv
    rcases hv with hv | hv
    · subst hv
      exact ⟨n, ext, hn, hext, rfl⟩
    · cases readErr with
      | some e => simp at hv
      | none =>
        simp only at hv
        have hok : okStack r (n :: (ext ++ st)) :=
          okStack_push r _ n hn (okStack_append_valid r ext st hext hst)
        have := walkChildren_belowBase r st hst (render r (n :: (ext ++ st))) (n :: ext)
          (isRooted_render _ _ hok) (by rw [cleanElems_render _ _ hok]; rfl)
          (by
            intro x hx
            rcases List.mem_cons.mp hx with rfl | hx
            · exact hn
            · exact hext x hx)
          children (by simpa [Node.wellNamed] using hw) v hv
        exact this
theorem walkChildren_belowBase (r : Bool) (st : List GoString) (hst : okStack r st)
    (p : GoString) (ext : List GoString) (hr : isRooted p = r)
    (hp : cleanElems p = ext ++ st) (hext : ∀ x ∈ ext, validName x) :
    ∀ children : List Node, wellNamedList children = true →
      ∀ v ∈ walkChildren p children, belowBase r st v
  | [], _, v, hv => by simp [walkChildren] at hv
  | c :: cs, hw, v, hv => by
    simp only [wellNamedList, Bool.and_eq_true, decide_eq_true_eq] at hw
    obtain ⟨⟨hname, hc⟩, hcs⟩ := hw
    simp only [walkChildren, List.mem_append] at hv
    rcases hv with hv | hv
    · rw [Join_name p c.name hname, hr, hp] at hv
      exact walk_belowBase r st hst c.name ext hname hext c hc v hv
    · exact walkChildren_belowBase r st hst p ext hr hp hext cs hcs v hv
end

theorem walkFn_of_not_marker (st : GoString × Nat) (v : Visit) (h : isMarker v = false) :
    walkFn st v = st := by
  unfold walkFn
  unfold isMarker at h
  cases he : v.err.isSome
  · simp only [he, Bool.not_false, Bool.true_and] at h
    simp [h]
  · simp

theorem walkFn_of_marker (st : GoString × Nat) (v : Visit) (h : isMarker v = true) :
    walkFn st v = if depthOf v < st.2 then (Dir v.path, depthOf v) else st := by
  unfold walkFn
  unfold isMarker at h
  simp only [Bool.and_eq_true, Bool.not_eq_true'] at h
  obtain ⟨⟨he, hd⟩, hn⟩ := h
  simp only [he, Bool.false_eq_true, if_false, hd, Bool.not_false, Bool.true_and, depthOf]
  have hn2 : (decide (v.name = manifestName) || decide (v.name = indexName)) = true := hn
  simp [hn2]

/-- The callback only ever moves the project root to the directory of a marker file. -/
theorem foldl_walkFn_invariant (Q : GoString → Prop) (visits : List Visit)
    (st : GoString × Nat) (hst : Q st.1)
    (hv : ∀ v ∈ visits, isMarker v = true → Q (Dir v.path)) :
    Q (visits.foldl walkFn st).1 := by
  induction visits generalizing st with
  | nil => exact hst
  | cons v rest ih =>
    rw [List.foldl_cons]
    apply ih _ _ (fun w hw => hv w (List.mem_cons_of_mem _ hw))
    cases hm : isMarker v
    · rw [walkFn_of_not_marker _ _ hm]; exact hst
    · rw [walkFn_of_marker _ _ hm]
      split
      · exact hv v (List.mem_cons_self _ _) hm
      · exact hst

/-- What the fold over the visits computes: the first marker of least depth
among those below the starting bound, or the starting state. -/
theorem foldl_walkFn_spec (visits : List Visit) (st : GoString × Nat) :
    ((∀ m ∈ visits.filter isMarker, st.2 ≤ depthOf m) ∧ visits.foldl walkFn st = st) ∨
    (∃ before m after, visits.filter isMarker = before ++ m :: after ∧
      depthOf m < st.2 ∧ (∀ x ∈ before, depthOf m < depthOf x) ∧
      (∀ x ∈ after, depthOf m ≤ depthOf x) ∧
      visits.foldl walkFn st = (Dir m.path, depthOf m)) := by
  induction visits generalizing st with
  | nil => left; simp
  | cons v rest ih =>
    rw [List.foldl_cons]
    cases hm : isMarker v
    · rw [walkFn_of_not_marker _ _ hm, List.filter_cons_of_neg (by simp [hm])]
      exact ih st
    · rw [walkFn_of_marker _ _ hm, List.filter_cons_of_pos hm]
      by_cases hlt : depthOf v < st.2
      · simp only [hlt, if_true]
        rcases ih (Dir v.path, depthOf v) with ⟨hall, heq⟩ | ⟨before, m, after, hsplit, hd, hb, ha, heq⟩
        · right
          exact ⟨[], v, List.filter isMarker rest, rfl, hlt, by simp, hall, heq⟩
        · right
          refine ⟨v :: before, m, after, by rw [hsplit]; rfl, lt_trans hd hlt, ?_, ha, heq⟩
          intro x hx
          rcases List.mem_cons.mp hx with rfl | hx
          · exact hd
          · exact hb x hx
      · simp only [hlt, if_false]
        rcases ih st with ⟨hall, heq⟩ | ⟨before, m, after, hsplit, hd, hb, ha, heq⟩
        · left
          refine ⟨?_, heq⟩
          intro x hx
          rcases List.mem_cons.mp hx with rfl | hx
          · exact Nat.le_of_not_lt hlt
          · exact hall x hx
        · right
          refine ⟨v :: before, m, after, by rw [hsplit]; rfl, hd, ?_, ha, heq⟩
          intro x hx
          rcases List.mem_cons.mp hx with rfl | hx
          · exact lt_of_lt_of_le hd (Nat.le_of_not_lt hlt)
          · exact hb x hx

theorem under_nil (base : GoString) : under base [] = Clean base := rfl

/-- Descending one more name is `filepath.Join` with that name. -/
theorem under_concat (base : GoString) (names : List GoString) (n : GoString)
    (hnames : ∀ x ∈ names, validName x) (hn : validName n) :
    under base (names ++ [n]) = Join (under base names) n := by
  have hok : okStack (isRooted base) (names.reverse ++ cleanElems base) :=
    okStack_append_valid _ _ _ (fun x hx => hnames x (List.mem_reverse.mp hx))
      (cleanElems_ok base)
  rw [Join_name _ _ hn]
  unfold under
  rw [isRooted_render _ _ hok, cleanElems_render _ _ hok]
  simp

/-- The markers found below a directory root lie in directories under the root. -/
theorem marker_dir_under (baseDir : GoString) (tree : Node)
    (hroot : tree.isFile = false) (hnames : tree.wellNamed = true) :
    ∀ v ∈ Walk baseDir tree, isMarker v = true →
      ∃ names, (∀ n ∈ names, validName n) ∧ Dir v.path = under baseDir names := by
  intro v hv hm
  have hbase := cleanElems_ok baseDir
  cases tree with
  | file name => simp [Node.isFile] at hroot
  | broken name err =>
    simp only [Walk, walk, List.mem_singleton] at hv
    subst hv
    simp [isMarker] at hm
  | dir name readErr children =>
    simp only [Walk, walk, List.mem_cons] at hv
    rcases hv with hv | hv
    · subst hv
      simp [isMarker] at hm
    · cases readErr with
      | some e => simp at hv
      | none =>
        simp only at hv
        obtain ⟨n, ext, hn, hext, hpath⟩ :=
          walkChildren_belowBase (isRooted baseDir) (cleanElems baseDir) hbase baseDir []
            rfl rfl (by simp) children (by simpa [Node.wellNamed] using hnames) v hv
        refine ⟨ext.reverse, fun x hx => hext x (List.mem_reverse.mp hx), ?_⟩
        rw [hpath, Dir_render_cons _ _ _
          (okStack_push _ _ n hn (okStack_append_valid _ _ _ hext hbase))]
        simp [under]

/-! ## Lemmas on the calls of the loop -/

theorem entryStep_ops_allowed (unmarshal : GoString → Option PackageJSON)
    (dest : GoString) (f : ZipEntry) :
    ∀ op ∈ (entryStep unmarshal dest f).2, allowedOp dest op := by
  intro op hop
  unfold entryStep at hop
  by_cases h1 : Contains f.Name nodeModulesMarker = true
  · simp [h1] at hop
  · simp only [h1, Bool.false_eq_true, if_false] at hop
    by_cases h2 : HasPrefix (Join dest f.Name) (Clean dest ++ sep) = true
    · have hdir : allowedOp dest (.MkdirAll (Dir (Join dest f.Name))) := by
        rcases Dir_Join_inside dest f.Name h2 with h | h
        · exact Or.inr h
        · exact Or.inl h
      have hfile : allowedOp dest (.OpenFile (Join dest f.Name)) := h2
      have hboth : ∀ o ∈ [FsOp.MkdirAll (Dir (Join dest f.Name)),
          FsOp.OpenFile (Join dest f.Name)], allowedOp dest o := by
        intro o ho
        simp only [List.mem_cons, List.mem_singleton, List.not_mem_nil, or_false] at ho
        rcases ho with rfl | rfl
        · exact hdir
        · exact hfile
      simp only [h2, Bool.not_true, Bool.false_eq_true, if_false] at hop
      by_cases h3 : f.IsDir = true
      · simp only [h3, if_true, List.mem_singleton] at hop
        subst hop
        exact Or.inl h2
      · simp only [h3, Bool.false_eq_true, if_false] at hop
        cases hm : f.mkdirErr with
        | some e =>
          simp only [hm, List.mem_singleton] at hop
          subst hop
          exact hdir
        | none =>
          simp only [hm] at hop
          cases ho : f.openFileErr with
          | some e => simp only [ho] at hop; exact hboth op hop
          | none =>
            simp only [ho] at hop
            cases hz : f.openErr with
            | some e => simp only [hz] at hop; exact hboth op hop
            | none =>
              simp only [hz] at hop
              cases hc : (if HasSuffix f.Name manifestSuffix = true
                      then checkFrameworks unmarshal f.Content else none) with
              | some e => simp only [hc] at hop; exact hboth op hop
              | none => simp only [hc] at hop; exact hboth op hop
    · simp [h2] at hop

theorem extractLoop_ops_mem (unmarshal : GoString → Option PackageJSON)
    (dest : GoString) (fs : List ZipEntry) (h : Bool) :
    ∀ op ∈ (extractLoop unmarshal dest fs h).2,
      ∃ f ∈ fs, op ∈ (entryStep unmarshal dest f).2 := by
  induction fs generalizing h with
  | nil =>
    intro op hop
    cases h <;> simp [extractLoop] at hop
  | cons f rest ih =>
    intro op hop
    rw [extractLoop_cons] at hop
    cases hs : (entryStep unmarshal dest f).1 with
    | some err =>
      simp only [hs] at hop
      exact ⟨f, List.mem_cons_self _ _, hop⟩
    | none =>
      simp only [hs, logged_snd, List.mem_append] at hop
      rcases hop with hop | hop
      · exact ⟨f, List.mem_cons_self _ _, hop⟩
      · obtain ⟨g, hg, hgop⟩ := ih _ op hop
        exact ⟨g, List.mem_cons_of_mem _ hg, hgop⟩

/-! ## Lemmas on the depth of a path -/

theorem length_splitSep_le (s : GoString) : (splitSep s).length ≤ s.length + 1 := by
  induction s with
  | nil => simp [splitSep]
  | cons c cs ih =>
    by_cases hc : c = '/'
    · simp only [splitSep, hc, if_true, List.length_cons]
      omega
    · simp only [splitSep, hc, if_false, List.length_cons]
      cases hcs : splitSep cs with
      | nil => simp
      | cons h t =>
        rw [hcs] at ih
        simp only [List.length_cons] at ih ⊢
        omega

theorem length_cleanStep_le (r : Bool) (out : List GoString) (e : GoString) :
    (cleanStep r out e).length ≤ out.length + 1 := by
  unfold cleanStep
  split
  · omega
  · split
    · omega
    · split
      · cases out with
        | nil => cases r <;> simp
        | cons top below =>
          simp only [List.length_cons]
          split
          · simp
          · omega
      · simp

theorem length_foldl_cleanStep_le (r : Bool) (l out : List GoString) :
    (l.foldl (cleanStep r) out).length ≤ out.length + l.length := by
  induction l generalizing out with
  | nil => simp
  | cons e rest ih =>
    have h1 := ih (cleanStep r out e)
    have h2 := length_cleanStep_le r out e
    simp only [List.foldl_cons, List.length_cons]
    omega

theorem length_cleanElems_le (q : GoString) : (cleanElems q).length ≤ q.length + 1 := by
  unfold cleanElems
  have h1 := length_foldl_cleanStep_le (isRooted q) (splitSep q) []
  have h2 := length_splitSep_le q
  simp only [List.length_nil] at h1
  omega

theorem length_splitSep_render_le (r : Bool) (st : List GoString) (h : okStack r st) :
    (splitSep (render r st)).length ≤ st.length + 2 := by
  have hns : ∀ x ∈ st.reverse, '/' ∉ x := fun x hx =>
    okStack_no_sep _ _ h x (List.mem_reverse.mp hx)
  cases st with
  | nil => cases r <;> simp [render, splitSep, joinSep]
  | cons c below =>
    have hne : (c :: below).reverse ≠ [] := by simp
    cases r
    · simp only [render, Bool.false_eq_true, if_false, List.cons_ne_nil]
      rw [splitSep_joinSep _ hne hns]
      simp
    · simp only [render, if_true, splitSep]
      rw [splitSep_joinSep _ hne hns]
      simp

theorem length_dirPart_le (p : GoString) : (dirPart p).length ≤ p.length := by
  unfold dirPart
  rw [List.length_reverse]
  have := (List.dropWhile_sublist (fun c => decide (c ≠ '/')) (l := p.reverse)).length_le
  simpa using this

/-- The depth the callback computes is bounded by the length of the path. -/
theorem depthOf_le (v : Visit) : depthOf v ≤ v.path.length + 3 := by
  unfold depthOf Dir Clean
  have h1 := length_splitSep_render_le _ _ (cleanElems_ok (dirPart v.path))
  have h2 := length_cleanElems_le (dirPart v.path)
  have h3 := length_dirPart_le v.path
  omega

/-- What `resolveTargetDirectory` computes for any tree: the first marker of
least depth among those less than 9999 pieces deep, or the root. -/
theorem resolveTargetDirectory_spec (baseDir : GoString) (tree : Node) :
    ((∀ m ∈ markers baseDir tree, 9999 ≤ depthOf m) ∧
        resolveTargetDirectory baseDir tree = baseDir) ∨
    (∃ before m after, markers baseDir tree = before ++ m :: after ∧
      depthOf m < 9999 ∧ (∀ x ∈ before, depthOf m < depthOf x) ∧
      (∀ x ∈ after, depthOf m ≤ depthOf x) ∧
      resolveTargetDirectory baseDir tree = Dir m.path) := by
  unfold resolveTargetDirectory markers
  rcases foldl_walkFn_spec (Walk baseDir tree) (baseDir, 9999) with
    ⟨hall, heq⟩ | ⟨before, m, after, hsplit, hd, hb, ha, heq⟩
  · exact Or.inl ⟨hall, by rw [heq]⟩
  · exact Or.inr ⟨before, m, after, hsplit, hd, hb, ha, by rw [heq]⟩

/-! ## The claims -/

/-- C4. When the manifest content decodes, `checkFrameworks` returns an error
exactly when some name of `forbiddenFrameworks` is a key of `dependencies` or
of `devDependencies`; the error is the text "usage of prohibited framework
detected: " followed by the first listed name that is such a key; without
such a key the result is `nil`; two decoded manifests with the same keys,
whatever the values, get the same result; and the list is react, vue,
@angular/core, nuxt, next, in this order. -/
theorem checkFrameworks_reports_first_match (unmarshal : GoString → Option PackageJSON)
    (content : GoString) (pkg : PackageJSON) (hparse : unmarshal content = some pkg) :
    ((checkFrameworks unmarshal content).isSome = true ↔
        ∃ fw ∈ forbiddenFrameworks,
          (pkg.Dependencies fw).isSome = true ∨ (pkg.DevDependencies fw).isSome = true) ∧
    (∀ err, checkFrameworks unmarshal content = some err →
        ∃ before fw after, forbiddenFrameworks = before ++ fw :: after ∧
          (∀ x ∈ before, (pkg.Dependencies x).isSome = false ∧
            (pkg.DevDependencies x).isSome = false) ∧
          ((pkg.Dependencies fw).isSome = true ∨ (pkg.DevDependencies fw).isSome = true) ∧
          err = "usage of prohibited framework detected: ".toList ++ fw) ∧
    ((∀ fw ∈ forbiddenFrameworks, (pkg.Dependencies fw).isSome = false ∧
        (pkg.DevDependencies fw).isSome = false) → checkFrameworks unmarshal content = none) ∧
    (∀ (unmarshal2 : GoString → Option PackageJSON) (content2 : GoString) (pkg2 : PackageJSON),
        unmarshal2 content2 = some pkg2 →
        (∀ k, (pkg2.Dependencies k).isSome = (pkg.Dependencies k).isSome) →
        (∀ k, (pkg2.DevDependencies k).isSome = (pkg.DevDependencies k).isSome) →
        checkFrameworks unmarshal2 content2 = checkFrameworks unmarshal content) ∧
    forbiddenFrameworks = ["react".toList, "vue".toList, "@angular/core".toList,
      "nuxt".toList, "next".toList] := by
  rw [checkFrameworks_of_parse _ _ _ hparse]
  refine ⟨?_, ?_, ?_, ?_, rfl⟩
  · rw [checkLoop_isSome_iff]
    simp [declares]
  · intro err herr
    obtain ⟨before, fw, after, hsplit, hbefore, hfw, herr2⟩ := checkLoop_some_first _ _ _ herr
    refine ⟨before, fw, after, hsplit, ?_, ?_, herr2⟩
    · intro x hx
      simpa [declares] using hbefore x hx
    · simpa [declares] using hfw
  · intro hnone
    rw [checkLoop_eq_find]
    have : List.find? (declares pkg) forbiddenFrameworks = none := by
      rw [List.find?_eq_none]
      intro x hx
      have := hnone x hx
      simp [declares, this.1, this.2]
    rw [this]; rfl
  · intro unmarshal2 content2 pkg2 hparse2 hdep hdev
    rw [checkFrameworks_of_parse _ _ _ hparse2]
    apply checkLoop_congr
    intro k
    simp [declares, hdep k, hdev k]

/-- Witness of C4: the manifest of scenario A decodes and `react` is reported. -/
theorem checkFrameworks_reports_first_match_witness :
    sampleUnmarshal reactManifest = some reactPkg ∧
    (checkFrameworks sampleUnmarshal reactManifest).isSome = true ∧
    checkFrameworks sampleUnmarshal reactManifest
      = some "usage of prohibited framework detected: react".toList :=
  ⟨rfl,
   (checkFrameworks_reports_first_match sampleUnmarshal reactManifest reactPkg rfl).1.mpr
      ⟨"react".toList, by decide, Or.inl rfl⟩,
   by decide⟩

/-- C5. Content that `json.Unmarshal` rejects makes `checkFrameworks` return
`nil`, and an archive with such a manifest entry gets the same result (and
makes the same calls) as the archive in which that entry holds a manifest
that decodes and declares no dependencies. -/
theorem malformed_manifest_is_ignored (unmarshal : GoString → Option PackageJSON)
    (content : GoString) (hbad : unmarshal content = none) :
    checkFrameworks unmarshal content = none ∧
    ∀ (pre post : List ZipEntry) (f : ZipEntry) (content2 : GoString) (pkg2 : PackageJSON)
      (zipPath dest : GoString),
      f.Content = content → unmarshal content2 = some pkg2 →
      (∀ k, pkg2.Dependencies k = none) → (∀ k, pkg2.DevDependencies k = none) →
      extractAndValidateZip unmarshal (opens (pre ++ f :: post)) zipPath dest =
        extractAndValidateZip unmarshal
          (opens (pre ++ { f with Content := content2 } :: post)) zipPath dest := by
  refine ⟨checkFrameworks_of_error _ _ hbad, ?_⟩
  intro pre post f content2 pkg2 zipPath dest hf hparse hdep hdev
  rw [extractAndValidateZip_opens, extractAndValidateZip_opens]
  refine extractLoop_swap unmarshal dest pre f { f with Content := content2 } post false ?_ rfl
  have h1 : checkFrameworks unmarshal f.Content = none := by
    rw [hf]; exact checkFrameworks_of_error _ _ hbad
  have h2 : checkFrameworks unmarshal content2 = none := by
    rw [checkFrameworks_of_parse _ _ _ hparse, checkLoop_eq_find]
    have : List.find? (declares pkg2) forbiddenFrameworks = none := by
      rw [List.find?_eq_none]
      intro x _
      simp [declares, hdep x, hdev x]
    rw [this]; rfl
  simp only [entryStep, h1, h2]

/-- Witness of C5: text that is not JSON, in an archive next to `index.html`. -/
theorem malformed_manifest_is_ignored_witness :
    sampleUnmarshal "not json".toList = none ∧
    checkFrameworks sampleUnmarshal "not json".toList = none ∧
    extractAndValidateZip sampleUnmarshal
        (opens [fileEntry indexName [], fileEntry manifestName "not json".toList])
        zipName tmpDir =
      extractAndValidateZip sampleUnmarshal
        (opens [fileEntry indexName [], fileEntry manifestName emptyManifest])
        zipName tmpDir :=
  have h := malformed_manifest_is_ignored sampleUnmarshal "not json".toList rfl
  ⟨rfl, h.1,
    h.2 [fileEntry indexName []] [] (fileEntry manifestName "not json".toList)
      emptyManifest emptyPkg zipName tmpDir rfl rfl (fun _ => rfl) (fun _ => rfl)⟩

/-- C6. An archive without an entry name ending in `.html` is never accepted:
the run returns an error, and when the body of the loop returns no error for
any entry that error is "no HTML files found anywhere in the project".  One
entry whose name ends in `.html`, at any depth, is enough: when no loop body
returns an error the run then returns `nil`. -/
theorem no_html_is_rejected (unmarshal : GoString → Option PackageJSON)
    (files : List ZipEntry) (zipPath dest : GoString) :
    ((∀ e ∈ files, HasSuffix e.Name htmlSuffix = false) →
      (extractAndValidateZip unmarshal (opens files) zipPath dest).1.isSome = true ∧
      ((∀ e ∈ files, passes unmarshal dest e) →
        (extractAndValidateZip unmarshal (opens files) zipPath dest).1
          = some "no HTML files found anywhere in the project".toList)) ∧
    ((∃ e ∈ files, HasSuffix e.Name htmlSuffix = true) →
      (∀ e ∈ files, passes unmarshal dest e) →
        (extractAndValidateZip unmarshal (opens files) zipPath dest).1 = none) := by
  rw [extractAndValidateZip_opens]
  refine ⟨fun hno => ⟨extractLoop_isSome_of_no_html _ _ _ hno, fun hp => ?_⟩, fun hex hp => ?_⟩
  · rw [extractLoop_all_pass _ _ _ _ hp, (anyHTML_eq_false files).mpr hno]
    rfl
  · rw [extractLoop_all_pass _ _ _ _ hp, (anyHTML_eq_true files).mpr hex]
    rfl

/-- Witness of C6: an archive holding only a stylesheet, another holding a nested page. -/
theorem no_html_is_rejected_witness :
    (extractAndValidateZip sampleUnmarshal (opens [fileEntry "css/site.css".toList []])
        zipName tmpDir).1 = some "no HTML files found anywhere in the project".toList ∧
    (extractAndValidateZip sampleUnmarshal (opens [fileEntry "a/b/c/page.html".toList []])
        zipName tmpDir).1 = none :=
  ⟨((no_html_is_rejected sampleUnmarshal [fileEntry "css/site.css".toList []]
        zipName tmpDir).1 (by decide)).2 (by decide),
   (no_html_is_rejected sampleUnmarshal [fileEntry "a/b/c/page.html".toList []]
        zipName tmpDir).2 (by decide) (by decide)⟩

/-- C2, amended. An entry whose joined path fails the path guard, and whose
name neither contains `node_modules/` nor ends in `.html` (both are looked at
before the guard), is skipped: the run returns the same result and makes the
same calls as on the archive without that entry. -/
theorem guard_skipped_entry_is_removable (unmarshal : GoString → Option PackageJSON)
    (pre : List ZipEntry) (f : ZipEntry) (post : List ZipEntry) (zipPath dest : GoString)
    (hguard : guardOK dest f.Name = false)
    (hmark : Contains f.Name nodeModulesMarker = false)
    (hhtml : HasSuffix f.Name htmlSuffix = false) :
    extractAndValidateZip unmarshal (opens (pre ++ f :: post)) zipPath dest =
      extractAndValidateZip unmarshal (opens (pre ++ post)) zipPath dest := by
  rw [extractAndValidateZip_opens, extractAndValidateZip_opens]
  exact extractLoop_drop _ _ _ _ _ _ (entryStep_guard_fails _ _ _ hmark hguard) hhtml

/-- Witness of C2: scenario D, the entry `../../etc/passwd` next to `index.html`. -/
theorem guard_skipped_entry_is_removable_witness :
    guardOK tmpDir "../../etc/passwd".toList = false ∧
    extractAndValidateZip sampleUnmarshal
        (opens ([fileEntry indexName []] ++ fileEntry "../../etc/passwd".toList [] :: []))
        zipName tmpDir =
      extractAndValidateZip sampleUnmarshal (opens ([fileEntry indexName []] ++ []))
        zipName tmpDir :=
  ⟨by decide,
   guard_skipped_entry_is_removable sampleUnmarshal [fileEntry indexName []]
     (fileEntry "../../etc/passwd".toList []) [] zipName tmpDir
     (by decide) (by decide) (by decide)⟩

/-- Counterexample to C2 as stated. The entry `../index.html` fails the guard,
yet the archive holding only it is accepted while the empty archive is
rejected; the entry `../node_modules/x.js` fails the guard, yet it turns the
accepted archive `[index.html]` into a rejected one. -/
theorem guard_skipped_entry_changes_verdict :
    (guardOK tmpDir "../index.html".toList = false ∧
      (extractAndValidateZip sampleUnmarshal (opens [fileEntry "../index.html".toList []])
        zipName tmpDir).1 = none ∧
      (extractAndValidateZip sampleUnmarshal (opens []) zipName tmpDir).1
        = some "no HTML files found anywhere in the project".toList) ∧
    (guardOK tmpDir "../node_modules/x.js".toList = false ∧
      (extractAndValidateZip sampleUnmarshal
        (opens [fileEntry indexName [], fileEntry "../node_modules/x.js".toList []])
        zipName tmpDir).1 = some "ZIP contains prohibited 'node_modules' directory".toList ∧
      (extractAndValidateZip sampleUnmarshal (opens [fileEntry indexName []])
        zipName tmpDir).1 = none) := by
  decide

/-- C3, amended. When a manifest entry (name ending in `package.json`) passes
the path guard, is not a directory, and its content decodes to a manifest
with a deny-listed key in `dependencies` or `devDependencies`, the run
returns an error; when moreover no earlier loop body returns an error, the
name holds no `node_modules/`, and the three calls made before the check
succeed, that error is the framework error for a deny-listed key of the
manifest. -/
theorem denied_dependency_is_rejected (unmarshal : GoString → Option PackageJSON)
    (pre : List ZipEntry) (f : ZipEntry) (post : List ZipEntry) (zipPath dest : GoString)
    (pkg : PackageJSON) (fw : GoString)
    (hname : HasSuffix f.Name manifestSuffix = true)
    (hguard : guardOK dest f.Name = true) (hfile : f.IsDir = false)
    (hparse : unmarshal f.Content = some pkg) (hfw : fw ∈ forbiddenFrameworks)
    (hdecl : (pkg.Dependencies fw).isSome = true ∨ (pkg.DevDependencies fw).isSome = true) :
    (extractAndValidateZip unmarshal (opens (pre ++ f :: post)) zipPath dest).1.isSome = true ∧
    ((∀ e ∈ pre, passes unmarshal dest e) → Contains f.Name nodeModulesMarker = false →
      f.mkdirErr = none → f.openFileErr = none → f.openErr = none →
      ∃ fw2 ∈ forbiddenFrameworks,
        ((pkg.Dependencies fw2).isSome = true ∨ (pkg.DevDependencies fw2).isSome = true) ∧
        (extractAndValidateZip unmarshal (opens (pre ++ f :: post)) zipPath dest).1
          = some ("usage of prohibited framework detected: ".toList ++ fw2)) := by
  have hd : declares pkg fw = true := by simpa [declares] using hdecl
  have hcheck : (checkFrameworks unmarshal f.Content).isSome = true :=
    (checkFrameworks_isSome_iff _ _).mpr ⟨pkg, fw, hparse, hfw, hd⟩
  rw [extractAndValidateZip_opens]
  refine ⟨extractLoop_isSome_of_abort _ _ _ _ _ _
    (not_passes_of_manifest _ _ _ hname hguard hfile hcheck), ?_⟩
  intro hpre hmark h1 h2 h3
  obtain ⟨err, herr⟩ := Option.isSome_iff_exists.mp hcheck
  rw [checkFrameworks_of_parse _ _ _ hparse] at herr
  obtain ⟨before, fw2, after, hsplit, _, hkey, herr2⟩ := checkLoop_some_first _ _ _ herr
  rw [← checkFrameworks_of_parse _ _ _ hparse] at herr
  refine ⟨fw2, ?_, by simpa [declares] using hkey, ?_⟩
  · rw [hsplit]; simp
  · rw [extractLoop_first_abort _ _ _ _ _ _ err hpre
      (entryStep_manifest _ _ _ _ hmark hname hguard hfile h1 h2 h3 herr), herr2]
    rfl

/-- Witness of C3: scenario A, `index.html` and a `package.json` that declares
`react`; the reason is the framework error for `react`. -/
theorem denied_dependency_is_rejected_witness :
    (HasSuffix manifestName manifestSuffix = true ∧ guardOK tmpDir manifestName = true ∧
      sampleUnmarshal reactManifest = some reactPkg ∧
      "react".toList ∈ forbiddenFrameworks ∧
      (reactPkg.Dependencies "react".toList).isSome = true) ∧
    (extractAndValidateZip sampleUnmarshal
        (opens ([fileEntry indexName []] ++ fileEntry manifestName reactManifest :: []))
        zipName tmpDir).1.isSome = true ∧
    (extractAndValidateZip sampleUnmarshal
        (opens ([fileEntry indexName []] ++ fileEntry manifestName reactManifest :: []))
        zipName tmpDir).1 = some "usage of prohibited framework detected: react".toList :=
  ⟨⟨by decide, by decide, rfl, by decide, by decide⟩,
   (denied_dependency_is_rejected sampleUnmarshal [fileEntry indexName []]
      (fileEntry manifestName reactManifest) [] zipName tmpDir reactPkg "react".toList
      (by decide) (by decide) rfl rfl (by decide) (Or.inl rfl)).1,
   by decide⟩

/-- Counterexample to C3 as stated. A manifest that declares `react` under the
name `../package.json` fails the path guard and is never read, and one whose
entry is flagged as a directory is never read either: both archives, which
also hold `index.html`, are accepted. -/
theorem denied_dependency_can_be_accepted :
    (HasSuffix "../package.json".toList manifestSuffix = true ∧
      sampleUnmarshal reactManifest = some reactPkg ∧
      "react".toList ∈ forbiddenFrameworks ∧
      (reactPkg.Dependencies "react".toList).isSome = true ∧
      (extractAndValidateZip sampleUnmarshal
        (opens [fileEntry indexName [], fileEntry "../package.json".toList reactManifest])
        zipName tmpDir).1 = none) ∧
    (extractAndValidateZip sampleUnmarshal
        (opens [fileEntry indexName [],
          ⟨manifestName, true, reactManifest, none, none, none, none⟩])
        zipName tmpDir).1 = none :=
  ⟨⟨by decide, rfl, by decide, by decide, by decide⟩, by decide⟩

/-- C7, amended. When the name of an entry has a path segment equal to
`node_modules` that is followed by the separator, the run returns an error
and makes exactly the calls it makes on the entries before that one, so
nothing is created for that entry or for a later one; when no earlier loop
body returns an error, the error is the prohibited-directory error. -/
theorem node_modules_entry_is_rejected (unmarshal : GoString → Option PackageJSON)
    (pre : List ZipEntry) (f : ZipEntry) (post : List ZipEntry) (zipPath dest : GoString)
    (hseg : hasDirSegment f.Name nodeModulesDir) :
    (extractAndValidateZip unmarshal (opens (pre ++ f :: post)) zipPath dest).1.isSome = true ∧
    (extractAndValidateZip unmarshal (opens (pre ++ f :: post)) zipPath dest).2
      = (extractAndValidateZip unmarshal (opens pre) zipPath dest).2 ∧
    ((∀ e ∈ pre, passes unmarshal dest e) →
      (extractAndValidateZip unmarshal (opens (pre ++ f :: post)) zipPath dest).1
        = some "ZIP contains prohibited 'node_modules' directory".toList) := by
  have hmark : Contains f.Name nodeModulesMarker = true :=
    Contains_of_dir_segment f.Name nodeModulesDir hseg
  have hstep := entryStep_marker unmarshal dest f hmark
  have hnot : ¬ passes unmarshal dest f := by
    unfold passes; rw [hstep]; simp
  simp only [extractAndValidateZip_opens]
  refine ⟨extractLoop_isSome_of_abort _ _ _ _ _ _ hnot,
    extractLoop_log_of_silent_abort _ _ _ _ _ _ hnot (by rw [hstep]), fun hpre => ?_⟩
  rw [extractLoop_first_abort _ _ _ _ _ _ nodeModulesError hpre (by rw [hstep])]
  rfl

/-- Witness of C7: scenario B. -/
theorem node_modules_entry_is_rejected_witness :
    hasDirSegment "project/node_modules/x/file.js".toList nodeModulesDir ∧
    (extractAndValidateZip sampleUnmarshal
        (opens ([fileEntry "project/src/index.html".toList [],
                 fileEntry "project/package.json".toList emptyManifest]
          ++ fileEntry "project/node_modules/x/file.js".toList [] :: []))
        zipName tmpDir).1 = some "ZIP contains prohibited 'node_modules' directory".toList :=
  ⟨by decide,
   (node_modules_entry_is_rejected sampleUnmarshal
      [fileEntry "project/src/index.html".toList [],
       fileEntry "project/package.json".toList emptyManifest]
      (fileEntry "project/node_modules/x/file.js".toList []) [] zipName tmpDir
      (by decide)).2.2 (by decide)⟩

/-- Counterexample to C7 as stated. A regular file named `node_modules` has a
path segment equal to the marker and the archive is accepted; and when a
manifest that declares `react` comes first, the entry `node_modules/x.js`
has such a segment but the reason returned is the framework error. -/
theorem node_modules_segment_not_always_the_reason :
    (hasSegment "node_modules".toList nodeModulesDir ∧
      (extractAndValidateZip sampleUnmarshal
        (opens [fileEntry indexName [], fileEntry "node_modules".toList []])
        zipName tmpDir).1 = none) ∧
    (hasSegment "node_modules/x.js".toList nodeModulesDir ∧
      (extractAndValidateZip sampleUnmarshal
        (opens [fileEntry manifestName reactManifest, fileEntry "node_modules/x.js".toList []])
        zipName tmpDir).1 = some "usage of prohibited framework detected: react".toList ∧
      "usage of prohibited framework detected: react".toList
        ≠ "ZIP contains prohibited 'node_modules' directory".toList) := by
  decide

/-- C8, amended. When no call fails, the run returns an error if and only if
some entry name contains `node_modules/`, or some manifest entry (name ending
in `package.json`) that passes the path guard and is not a directory decodes
to a manifest with a deny-listed key, or no entry name ends in `.html`. -/
theorem rejects_iff_reject_condition (unmarshal : GoString → Option PackageJSON)
    (files : List ZipEntry) (zipPath dest : GoString) (hio : ∀ e ∈ files, ioClean e) :
    (extractAndValidateZip unmarshal (opens files) zipPath dest).1.isSome = true ↔
      ((∃ e ∈ files, Contains e.Name nodeModulesMarker = true) ∨
       (∃ e ∈ files, HasSuffix e.Name manifestSuffix = true ∧ guardOK dest e.Name = true ∧
          e.IsDir = false ∧ ∃ pkg fw, unmarshal e.Content = some pkg ∧
            fw ∈ forbiddenFrameworks ∧
            ((pkg.Dependencies fw).isSome = true ∨ (pkg.DevDependencies fw).isSome = true)) ∨
       (∀ e ∈ files, HasSuffix e.Name htmlSuffix = false)) := by
  rw [extractAndValidateZip_opens]
  constructor
  · intro hrej
    by_contra hnone
    simp only [not_or] at hnone
    obtain ⟨hn1, hn2, hn3⟩ := hnone
    have hp : ∀ e ∈ files, passes unmarshal dest e := by
      intro e he
      apply passes_of_clean _ _ _ (hio e he)
      · by_contra hc
        exact hn1 ⟨e, he, by simpa using hc⟩
      · rintro ⟨h1, h2, h3, h4⟩
        obtain ⟨pkg, fw, hparse, hfw, hd⟩ := (checkFrameworks_isSome_iff _ _).mp h4
        exact hn2 ⟨e, he, h1, h2, h3, pkg, fw, hparse, hfw, by simpa [declares] using hd⟩
    have hhtml : anyHTML files = true := by
      rw [anyHTML_eq_true]
      by_contra hc
      apply hn3
      intro e he
      by_contra hx
      exact hc ⟨e, he, by simpa using hx⟩
    rw [extractLoop_all_pass _ _ _ _ hp, hhtml] at hrej
    simp at hrej
  · rintro (⟨e, he, hmark⟩ | ⟨e, he, h1, h2, h3, pkg, fw, hparse, hfw, hd⟩ | hno)
    · obtain ⟨pre, post, rfl⟩ := List.append_of_mem he
      apply extractLoop_isSome_of_abort
      unfold passes
      rw [entryStep_marker _ _ _ hmark]; simp
    · obtain ⟨pre, post, rfl⟩ := List.append_of_mem he
      apply extractLoop_isSome_of_abort
      exact not_passes_of_manifest _ _ _ h1 h2 h3
        ((checkFrameworks_isSome_iff _ _).mpr ⟨pkg, fw, hparse, hfw, by simpa [declares] using hd⟩)
    · exact extractLoop_isSome_of_no_html _ _ _ hno

/-- Witness of C8: scenario C, a nested `index.html` and no manifest, meets
none of the three conditions and is accepted. -/
theorem rejects_iff_reject_condition_witness :
    (∀ e ∈ [fileEntry "submission-v2/app/index.html".toList []], ioClean e) ∧
    ¬ (extractAndValidateZip sampleUnmarshal
        (opens [fileEntry "submission-v2/app/index.html".toList []])
        zipName tmpDir).1.isSome = true := by
  refine ⟨by decide, fun hrej => ?_⟩
  rcases (rejects_iff_reject_condition sampleUnmarshal
    [fileEntry "submission-v2/app/index.html".toList []] zipName tmpDir (by decide)).mp hrej
    with ⟨e, he, h⟩ | ⟨e, he, h, _⟩ | h
  · rw [List.mem_singleton] at he
    subst he
    revert h
    decide
  · rw [List.mem_singleton] at he
    subst he
    revert h
    decide
  · exact absurd (h _ (List.mem_singleton_self _)) (by decide)

/-- Counterexample to C8 as stated. With no failing call: the entry
`my_node_modules/a.js` makes the run reject although no path segment equals
`node_modules`, no entry is a manifest and `index.html` is present; a regular
file named `vendor/node_modules` has a segment equal to the marker and the
archive is accepted; and a manifest that declares `react` under the name
`../../package.json` leaves the archive accepted. -/
theorem reject_conditions_as_stated_fail :
    ((extractAndValidateZip sampleUnmarshal
        (opens [fileEntry indexName [], fileEntry "my_node_modules/a.js".toList []])
        zipName tmpDir).1 = some "ZIP contains prohibited 'node_modules' directory".toList ∧
      (∀ e ∈ [fileEntry indexName [], fileEntry "my_node_modules/a.js".toList []],
        ioClean e ∧ ¬ hasSegment e.Name nodeModulesDir ∧
        HasSuffix e.Name manifestSuffix = false) ∧
      HasSuffix indexName htmlSuffix = true) ∧
    (hasSegment "vendor/node_modules".toList nodeModulesDir ∧
      (extractAndValidateZip sampleUnmarshal
        (opens [fileEntry indexName [], fileEntry "vendor/node_modules".toList []])
        zipName tmpDir).1 = none) ∧
    (HasSuffix "../../package.json".toList manifestSuffix = true ∧
      sampleUnmarshal reactManifest = some reactPkg ∧
      (reactPkg.Dependencies "react".toList).isSome = true ∧
      (extractAndValidateZip sampleUnmarshal
        (opens [fileEntry indexName [], fileEntry "../../package.json".toList reactManifest])
        zipName tmpDir).1 = none) :=
  ⟨by decide, by decide, by decide, rfl, by decide, by decide⟩

/-- C1, amended. For every archive and destination, every file the run opens
is at a path strictly inside the destination (the path starts with
`filepath.Clean(dest)` followed by the separator), and every directory it
makes is at such a path or at `filepath.Clean(dest)` itself, the parent
directory of a top-level entry.  For an entry whose joined path lacks the
guarded start, no file is opened at that path, and a directory is made at
that path only when it is the cleaned destination. -/
theorem created_paths_stay_inside (unmarshal : GoString → Option PackageJSON)
    (files : List ZipEntry) (zipPath dest : GoString) :
    (∀ op ∈ (extractAndValidateZip unmarshal (opens files) zipPath dest).2,
        allowedOp dest op) ∧
    (∀ f ∈ files, guardOK dest f.Name = false →
        FsOp.OpenFile (Join dest f.Name) ∉
          (extractAndValidateZip unmarshal (opens files) zipPath dest).2 ∧
        (FsOp.MkdirAll (Join dest f.Name) ∈
          (extractAndValidateZip unmarshal (opens files) zipPath dest).2 →
            Join dest f.Name = Clean dest)) := by
  have hall : ∀ op ∈ (extractAndValidateZip unmarshal (opens files) zipPath dest).2,
      allowedOp dest op := by
    intro op hop
    rw [extractAndValidateZip_opens] at hop
    obtain ⟨f, _, hf⟩ := extractLoop_ops_mem _ _ _ _ op hop
    exact entryStep_ops_allowed _ _ _ op hf
  refine ⟨hall, fun f _ hguard => ⟨fun hmem => ?_, fun hmem => ?_⟩⟩
  · have h := hall _ hmem
    unfold guardOK at hguard
    simp only [allowedOp] at h
    rw [hguard] at h
    exact absurd h (by simp)
  · have h := hall _ hmem
    unfold guardOK at hguard
    simp only [allowedOp] at h
    rw [hguard] at h
    simpa using h

/-- Witness of C1: scenario D; the only calls are those for `index.html`. -/
theorem created_paths_stay_inside_witness :
    guardOK tmpDir "../../etc/passwd".toList = false ∧
    FsOp.OpenFile (Join tmpDir "../../etc/passwd".toList) ∉
      (extractAndValidateZip sampleUnmarshal
        (opens [fileEntry "../../etc/passwd".toList [], fileEntry indexName []])
        zipName tmpDir).2 :=
  ⟨by decide,
   ((created_paths_stay_inside sampleUnmarshal
      [fileEntry "../../etc/passwd".toList [], fileEntry indexName []] zipName tmpDir).2
      (fileEntry "../../etc/passwd".toList []) (by simp) (by decide)).1⟩

/-- Counterexample to C1 as stated. For the top-level entry `index.html`
the run calls `os.MkdirAll` on the destination `/tmp/review` itself, which
creates that directory when it does not exist yet; the path does not start
with the cleaned destination followed by the separator. -/
theorem parent_directory_call_hits_destination :
    (extractAndValidateZip sampleUnmarshal (opens [fileEntry indexName []])
        zipName tmpDir).2
      = [FsOp.MkdirAll "/tmp/review".toList, FsOp.OpenFile "/tmp/review/index.html".toList] ∧
    HasPrefix "/tmp/review".toList (Clean tmpDir ++ sep) = false := by
  decide

/-- C9. For a root that is a directory or cannot be read, with a tree below
it whose directories list proper file names, `resolveTargetDirectory` returns
`baseDir` itself or the cleaned path that descends from `baseDir` through
names of the tree (`filepath.Clean(baseDir)` when there are no names), also
when entries fail to be read and when the root itself fails. -/
theorem resolve_stays_under_root (baseDir : GoString) (tree : Node)
    (hroot : tree.isFile = false) (hnames : tree.wellNamed = true) :
    resolveTargetDirectory baseDir tree = baseDir ∨
      ∃ names, (∀ n ∈ names, validName n) ∧
        resolveTargetDirectory baseDir tree = under baseDir names := by
  unfold resolveTargetDirectory
  exact foldl_walkFn_invariant
    (fun p => p = baseDir ∨ ∃ names, (∀ n ∈ names, validName n) ∧ p = under baseDir names)
    (Walk baseDir tree) (baseDir, 9999) (Or.inl rfl)
    (fun v hv hm => Or.inr (marker_dir_under baseDir tree hroot hnames v hv hm))

/-- Witness of C9: a tree with an unreadable directory and an entry that
cannot be read resolves below the root; a root that cannot be read resolves
to the root. -/
theorem resolve_stays_under_root_witness :
    (mixedTree.isFile = false ∧ mixedTree.wellNamed = true) ∧
    (resolveTargetDirectory tmpDir mixedTree = tmpDir ∨
      ∃ names, (∀ n ∈ names, validName n) ∧
        resolveTargetDirectory tmpDir mixedTree = under tmpDir names) ∧
    resolveTargetDirectory tmpDir mixedTree = "/tmp/review/site".toList ∧
    under tmpDir ["site".toList] = "/tmp/review/site".toList ∧
    resolveTargetDirectory tmpDir (.broken "review".toList "lstat failed".toList) = tmpDir :=
  ⟨⟨by decide, by decide⟩,
   resolve_stays_under_root tmpDir mixedTree (by decide) (by decide),
   by decide, by decide, by decide⟩

/-- C10. For every tree whose marker files (not a directory, named exactly
`package.json` or `index.html`) lie at paths shorter than `PATH_MAX`, as every
path does on which `os.Lstat` succeeds: when the tree has a marker file,
`resolveTargetDirectory` returns the containing directory of a marker file
whose depth (the number of pieces of that directory) is the least over all
marker files, the first one the walk reaches among those of least depth; when
the tree has no marker file it returns the root unchanged. -/
theorem resolve_picks_first_shallowest_marker (baseDir : GoString) (tree : Node)
    (hlen : ∀ m ∈ markers baseDir tree, m.path.length < pathMax) :
    (markers baseDir tree = [] → resolveTargetDirectory baseDir tree = baseDir) ∧
    (markers baseDir tree ≠ [] →
        ∃ before m after, markers baseDir tree = before ++ m :: after ∧
          (∀ x ∈ before, depthOf m < depthOf x) ∧
          (∀ x ∈ after, depthOf m ≤ depthOf x) ∧
          resolveTargetDirectory baseDir tree = Dir m.path) := by
  have hdepth : ∀ m ∈ markers baseDir tree, depthOf m < 9999 := by
    intro m hm
    have h1 := depthOf_le m
    have h2 := hlen m hm
    unfold pathMax at h2
    omega
  rcases resolveTargetDirectory_spec baseDir tree with
    ⟨hall, heq⟩ | ⟨before, m, after, hsplit, _, hb, ha, heq⟩
  · refine ⟨fun _ => heq, fun hne => ?_⟩
    obtain ⟨m, rest, hm⟩ := List.exists_cons_of_ne_nil hne
    have hmem : m ∈ markers baseDir tree := by rw [hm]; exact List.mem_cons_self _ _
    exact absurd (hall m hmem) (Nat.not_le.mpr (hdepth m hmem))
  · refine ⟨fun hnil => ?_, fun _ => ⟨before, m, after, hsplit, hb, ha, heq⟩⟩
    rw [hnil] at hsplit
    exact absurd hsplit (by simp)

/-- Witness of C10: the tree holding only `submission-v2/app/index.html`
resolves to `<root>/submission-v2/app`; a tree with two markers at different
depths resolves to the directory of the shallower one; a tree without marker
resolves to the root. -/
theorem resolve_picks_first_shallowest_marker_witness :
    (∀ m ∈ markers tmpDir nestedTree, m.path.length < pathMax) ∧
    markers tmpDir nestedTree ≠ [] ∧
    (∃ before m after, markers tmpDir nestedTree = before ++ m :: after ∧
      (∀ x ∈ before, depthOf m < depthOf x) ∧ (∀ x ∈ after, depthOf m ≤ depthOf x) ∧
      resolveTargetDirectory tmpDir nestedTree = Dir m.path) ∧
    resolveTargetDirectory tmpDir nestedTree = "/tmp/review/submission-v2/app".toList ∧
    resolveTargetDirectory tmpDir mixedTree = "/tmp/review/site".toList ∧
    resolveTargetDirectory tmpDir (.dir "review".toList none [.file "a.css".toList]) = tmpDir :=
  ⟨by decide, by decide,
   (resolve_picks_first_shallowest_marker tmpDir nestedTree (by decide)).2 (by decide),
   by decide, by decide, by decide⟩

end Reviewer
